import Mathlib

/-!
# Ark bytecode compiler: a shallow embedding of `src/Compiler/Compiler.cpp`

The compiler walks the parsed S-expression tree (`Node`) and fills three tables
(`m_symbols`, `m_values`, `m_code_pages`) plus the output byte vector `m_bytecode`.

Modelling conventions

* `std::vector<T>` is `List T`; `push_back` / `emplace_back` append at the end.
* `std::string` is `String`, one `Char` per `char`; the byte pushed for a character is
  its code `Char.toNat`.
* `uint16_t` / `std::size_t` values are `Nat`; `static_cast<uint16_t>(e)` is `e % 65536`.
* A `std::vector<Inst>&` argument is a `PageRef`: the code page with a given index, the
  member `m_temp_page`, or `dangling`.  Aliasing between the `page` argument and
  `m_temp_page` is therefore kept.  `m_code_pages.emplace_back()` relocates the pages when
  the capacity is used up; the capacity is the choice of the standard library and
  `m_code_pages` never reserves storage, so no reference to one of its elements is
  guaranteed to survive the next `m_code_pages.emplace_back()`.  The embedding keeps what
  is guaranteed: a reference taken when the vector held `size` pages is `dangling` as soon
  as the vector holds more (`Compiler.alive`).  The expression `m_code_pages.back()` is
  evaluated afresh at each use and always designates the last page.
* The embedding returns `none` where the source has no defined behaviour: out-of-range
  `x.list()[i]`, `getStringVal()` on a node that carries no string, a write through a
  dangling reference (`Compiler.write`), and the loop that copies `m_temp_page` into
  itself while it holds slots, which appends to the vector it iterates over
  (`Compiler.spliceTo`).  A result `some c` is therefore a run in which every write went
  through a valid reference.
* The headers that declare `Instruction`, `Inst`, `Node`, `Keyword` and the library
  `dozerg::HugeNumber` are not part of the sources at hand.  An `Instruction` enumerator
  is kept by name (`Byte.op`), since neither `compile` nor `_compile` looks at its value.
  The conversion applied by `static_cast<uint16_t>(m_temp_page)` and the base-16 printer
  of `HugeNumber` are parameters of the model.
-/

namespace Ark

/-- The six special forms (`Keyword::If`, ...). -/
inductive Keyword where
  | If | Set | Def | Fun | Begin | While
  deriving DecidableEq

/-- Modelled from the spec: `dozerg::HugeNumber`, the arbitrary-precision number carried by
a `Number` node; the library is not part of the sources. -/
abbrev HugeNumber := Int

/-- Modelled from the spec: the AST `Node` (its header is not part of the sources): a node is
a `Symbol`, a `String`, a `Number`, a `Keyword` or a `List` of child nodes. -/
inductive Node where
  | Symbol (s : String)
  | String (s : String)
  | Number (n : HugeNumber)
  | Keyword (k : Keyword)
  | List (xs : List Node)

/-- Modelled from the spec: `Node::getStringVal()`; only `Symbol` and `String` nodes carry a
string, any other node has no string value. -/
def getStringVal : Node → Option String
  | .Symbol s => some s
  | .String s => some s
  | _ => none

/-- Modelled from the spec: `Node::list()`; the children of a `List` node, and the empty
vector for a leaf. -/
def list : Node → List Node
  | .List xs => xs
  | _ => []

/-- The constant-pool entry of `Value.hpp`: the variant `value` together with its tag
`type` (`ValueType::Number`, `ValueType::String`, `ValueType::PageAddr`). -/
inductive Value where
  | Number (n : HugeNumber)
  | String (s : String)
  | PageAddr (page : Nat)
  deriving DecidableEq

/-- The enumerators of `Instruction` used by the compiler.  The header that gives them their
numeric values is not part of the sources, so an enumerator is kept by name. -/
inductive Instruction where
  | NOP | SYM_TABLE_START | VAL_TABLE_START | CODE_SEGMENT_START | NUMBER_TYPE | STRING_TYPE
  | LOAD_SYMBOL | LOAD_CONST | POP_JUMP_IF_TRUE | STORE | LET | POP_JUMP_IF_FALSE | JUMP
  | RET | HALT | CALL | NEW_ENV
  deriving DecidableEq

/-- A `uint8_t` as the compiler writes it: the value of an `Instruction` enumerator (`op`) or
a number (`num`), such as a character or one half of a 16-bit operand. -/
inductive Byte where
  | op (i : Instruction)
  | num (n : Nat)
  deriving DecidableEq

/-- The number stored for a byte once the values `enc` of the enumerators are known. -/
def Byte.toNat (enc : Instruction → Nat) : Byte → Nat
  | .op i => enc i
  | .num n => n

/-- Modelled from the spec: the instruction slot `Inst` (declared in the missing header):
a literal byte `inst`, or a deferred page reference when `jump_to_page` is not 0. -/
structure Inst where
  inst : Byte
  jump_to_page : Nat
  deriving DecidableEq

/-- Modelled from the spec: the converting constructor `Inst(uint8_t)` used by every
`emplace_back(byte)` / `push_back(byte)` on a page: a literal byte, no page reference. -/
def Inst.ofByte (b : Byte) : Inst := ⟨b, 0⟩

/-- The data members of `Compiler` that `compile` and `_compile` touch. -/
structure Compiler where
  m_symbols : List String
  m_values : List Value
  m_code_pages : List (List Inst)
  m_temp_page : List Inst
  m_bytecode : List Byte
  deriving DecidableEq

/-- A freshly constructed compiler: every container is empty. -/
def Compiler.fresh : Compiler := ⟨[], [], [], [], []⟩

/-- What a `std::vector<Inst>&` argument designates: the element `i` of `m_code_pages`, the
member `m_temp_page`, or nothing any more (a reference to an element of `m_code_pages`
that a later `m_code_pages.emplace_back()` has invalidated). -/
inductive PageRef where
  | code (i : Nat)
  | temp
  | dangling
  deriving DecidableEq

/-- Appends `s` to the `i`-th list and leaves the others alone (nothing happens when `i` is
not an index). -/
def appendAt : List (List Inst) → Nat → List Inst → List (List Inst)
  | [], _, _ => []
  | p :: ps, 0, s => (p ++ s) :: ps
  | p :: ps, i + 1, s => p :: appendAt ps i s

/-- The content of the designated page. -/
def Compiler.page (c : Compiler) : PageRef → List Inst
  | .code i => c.m_code_pages.getD i []
  | .temp => c.m_temp_page
  | .dangling => []

/-- Appends the slots `s` at the end of the designated page (no page is designated by
`dangling`: see `Compiler.write` for the writes that can meet it). -/
def Compiler.extend (c : Compiler) (p : PageRef) (s : List Inst) : Compiler :=
  match p with
  | .code i => { c with m_code_pages := appendAt c.m_code_pages i s }
  | .temp => { c with m_temp_page := c.m_temp_page ++ s }
  | .dangling => c

/-- Appends the byte `b` at the end of the designated page: the call
`m_code_pages.back().emplace_back(b)` when `p` is `c.back`, and what `page.emplace_back(b)`
does through a reference that is valid (`Compiler.emplaceTo`). -/
def Compiler.emplace_back (c : Compiler) (p : PageRef) (b : Byte) : Compiler :=
  c.extend p [Inst.ofByte b]

/-- The call `m_bytecode.push_back(b)`. -/
def Compiler.push_byte (c : Compiler) (b : Byte) : Compiler :=
  { c with m_bytecode := c.m_bytecode ++ [b] }

/-- The call `m_code_pages.emplace_back()`: a new empty page at the end. -/
def Compiler.new_page (c : Compiler) : Compiler :=
  { c with m_code_pages := c.m_code_pages ++ [[]] }

/-- The index `m_code_pages.size() - 1` designated by `m_code_pages.back()`. -/
def Compiler.back (c : Compiler) : PageRef :=
  .code (c.m_code_pages.length - 1)

/-- What the loop `for (auto&& inst : m_temp_page) page.push_back(inst);` followed by
`m_temp_page.clear()` does when it is defined (`Compiler.spliceTo`): the slots held by
`m_temp_page` are appended to the page and `m_temp_page` is emptied. -/
def Compiler.splice (c : Compiler) (p : PageRef) : Compiler :=
  { c.extend p c.m_temp_page with m_temp_page := [] }

/-- What has become, in state `c`, of the reference `p` that was valid when `m_code_pages`
held `size` pages: a reference to a code page is dangling once a page has been added. -/
def Compiler.alive (c : Compiler) (size : Nat) : PageRef → PageRef
  | .code i => if c.m_code_pages.length = size then .code i else .dangling
  | .temp => .temp
  | .dangling => .dangling

/-- A write of the slots `s` through the reference `p`: defined on `m_temp_page` and on an
existing code page, undefined through a dangling reference. -/
def Compiler.write (c : Compiler) (p : PageRef) (s : List Inst) : Option Compiler :=
  match p with
  | .code i => if i < c.m_code_pages.length then some (c.extend (.code i) s) else none
  | .temp => some (c.extend .temp s)
  | .dangling => none

/-- The call `page.emplace_back(b)` (or `page.push_back(b)`) through a reference argument. -/
def Compiler.emplaceTo (c : Compiler) (p : PageRef) (b : Byte) : Option Compiler :=
  c.write p [Inst.ofByte b]

/-- The loop `for (auto&& inst : m_temp_page) page.push_back(inst);` followed by
`m_temp_page.clear()`, through a reference argument.  With an empty `m_temp_page` the loop
body never runs and nothing is written.  Otherwise every slot is written through `p`; when
`p` is `m_temp_page` itself the loop appends to the vector it iterates over, which
invalidates its iterators: undefined. -/
def Compiler.spliceTo (c : Compiler) (p : PageRef) : Option Compiler :=
  if c.m_temp_page = [] then some (c.splice p)
  else
    match p with
    | .code i => if i < c.m_code_pages.length then some (c.splice (.code i)) else none
    | .temp => none
    | .dangling => none

/-- The algorithm `std::find(v.begin(), v.end(), a)` as a position: the index of the first
element equal to `a`, or `v.size()` (the `end()` position) when there is none. -/
def find {α : Type} [DecidableEq α] : List α → α → Nat
  | [], _ => 0
  | b :: bs, a => if b = a then 0 else find bs a + 1

/-- The method `Compiler::addSymbol`: the index of `sym` in `m_symbols`, appended when absent. -/
def addSymbol (sym : String) (c : Compiler) : Nat × Compiler :=
  let it := find c.m_symbols sym
  if it = c.m_symbols.length then
    let c := { c with m_symbols := c.m_symbols ++ [sym] }
    (c.m_symbols.length - 1, c)
  else
    (it, c)

/-- The tail shared by both `Compiler::addValue` overloads once the `Value v` is built. -/
def addValue (v : Value) (c : Compiler) : Nat × Compiler :=
  let it := find c.m_values v
  if it = c.m_values.length then
    let c := { c with m_values := c.m_values ++ [v] }
    (c.m_values.length - 1, c)
  else
    (it, c)

/-- The method `Compiler::pushNumber(uint16_t n, std::vector<Inst>* page)`; `none` is the
default argument `nullptr`, which selects `m_bytecode`. -/
def pushNumber (n : Nat) (page : Option PageRef) (c : Compiler) : Compiler :=
  let n := n % 65536
  match page with
  | none => (c.push_byte (.num ((n &&& 0xff00) >>> 8))).push_byte (.num (n &&& 0x00ff))
  | some p =>
    (c.emplace_back p (.num ((n &&& 0xff00) >>> 8))).emplace_back p (.num (n &&& 0x00ff))

/-- The call `pushNumber(n, &page)` through a reference argument: two writes through it. -/
def pushNumberTo (n : Nat) (p : PageRef) (c : Compiler) : Option Compiler := do
  let n := n % 65536
  let c ← c.emplaceTo p (.num ((n &&& 0xff00) >>> 8))
  c.emplaceTo p (.num (n &&& 0x00ff))

/-- The parameter loop of the `fun` form: for each formal, `LET` then the symbol index, both
on `m_code_pages.back()`. -/
def pushParams : List Node → Compiler → Option Compiler
  | [], c => some c
  | it :: its, c => do
    let c := c.emplace_back c.back (.op .LET)
    let name ← getStringVal it
    let (var_id, c) := addSymbol name c
    pushParams its (pushNumber (var_id % 65536) (some c.back) c)

mutual

/-- The method `Compiler::_compile(Node x, std::vector<Inst>& page)`.  The argument `cast`
stands for the conversion `static_cast<uint16_t>(m_temp_page)` of the `while` form.  The
reference `page` is as the caller passes it; `size` is the number of code pages on entry,
so `c.alive size page` is what the reference has become in a later state `c`. -/
def _compile (cast : List Inst → Nat) :
    Node → PageRef → Compiler → Option Compiler
  | .Symbol name, page, c => do
    let (i, c) := addSymbol name c
    let c ← c.emplaceTo page (.op .LOAD_SYMBOL)
    pushNumberTo (i % 65536) page c
  | .String s, page, c => do
    let (i, c) := addValue (.String s) c
    let c ← c.emplaceTo page (.op .LOAD_CONST)
    pushNumberTo (i % 65536) page c
  | .Number n, page, c => do
    let (i, c) := addValue (.Number n) c
    let c ← c.emplaceTo page (.op .LOAD_CONST)
    pushNumberTo (i % 65536) page c
  | .Keyword _, page, c => c.emplaceTo page (.op .NOP)
  | .List [], page, c => c.emplaceTo page (.op .NOP)
  | .List (.Keyword .If :: cond :: thn :: els :: _), page, c => do
    let size := c.m_code_pages.length
    let c ← _compile cast cond page c
    let c ← c.emplaceTo (c.alive size page) (.op .POP_JUMP_IF_TRUE)
    let c ← _compile cast els .temp c
    let c ← pushNumberTo (c.m_temp_page.length % 65536) (c.alive size page) c
    let c ← c.spliceTo (c.alive size page)
    _compile cast thn (c.alive size page) c
  | .List (.Keyword .Set :: target :: value :: _), page, c => do
    let size := c.m_code_pages.length
    let name ← getStringVal target
    let (i, c) := addSymbol name c
    let c ← _compile cast value page c
    let c ← c.emplaceTo (c.alive size page) (.op .STORE)
    pushNumberTo (i % 65536) (c.alive size page) c
  | .List (.Keyword .Def :: target :: value :: _), page, c => do
    let size := c.m_code_pages.length
    let name ← getStringVal target
    let (i, c) := addSymbol name c
    let c ← _compile cast value page c
    let c ← c.emplaceTo (c.alive size page) (.op .LET)
    pushNumberTo (i % 65536) (c.alive size page) c
  | .List (.Keyword .Fun :: params :: body :: _), _, c => do
    let c := c.new_page
    let page_id := c.m_code_pages.length - 1
    let (id, c) := addValue (.PageAddr page_id) c
    let c := pushNumber (id % 65536) none c
    let c := c.emplace_back c.back (.op .NEW_ENV)
    let c ← pushParams (list params) c
    let c ← _compile cast body c.back c
    some (c.emplace_back c.back (.op .RET))
  | .List (.Keyword .Begin :: rest), page, c => do
    let size := c.m_code_pages.length
    let c ← _compileEach cast rest page c
    c.emplaceTo (c.alive size page) (.op .RET)
  | .List (.Keyword .While :: cond :: body :: _), page, c => do
    let size := c.m_code_pages.length
    let current := (c.page page).length
    let c ← _compile cast cond page c
    let c ← _compile cast body .temp c
    let c ← c.emplaceTo (c.alive size page) (.op .POP_JUMP_IF_FALSE)
    let c ← pushNumberTo (cast c.m_temp_page % 65536) (c.alive size page) c
    let c ← c.spliceTo (c.alive size page)
    let c ← c.emplaceTo (c.alive size page) (.op .JUMP)
    pushNumberTo (current % 65536) (c.alive size page) c
  | .List (.Keyword _ :: _), _, _ => none
  | .List (proc :: args), page, c => do
    let size := c.m_code_pages.length
    let c ← _compile cast proc .temp c
    let c ← _compileEach cast args (c.alive size page) c
    let c ← c.spliceTo (c.alive size page)
    let c ← c.emplaceTo (c.alive size page) (.op .CALL)
    some (pushNumber (args.length % 65536) none c)

/-- A loop `_compile(e, page)` over consecutive elements of `x.list()`, as in the `begin`
form and the argument loop of a call.  Every iteration passes the same reference, which is
dangling for the remaining elements once an element has added a code page. -/
def _compileEach (cast : List Inst → Nat) :
    List Node → PageRef → Compiler → Option Compiler
  | [], _, c => some c
  | x :: xs, page, c => do
    let c1 ← _compile cast x page c
    _compileEach cast xs (c1.alive c.m_code_pages.length page) c1

end

/-- The loop `for (i = 0; i < t.size(); ++i) m_bytecode.push_back(t[i]);` over a string. -/
def pushString (t : String) (c : Compiler) : Compiler :=
  t.toList.foldl (fun c ch => c.push_byte (.num ch.toNat)) c

/-- The loop of `compile` over `m_symbols`: the characters of each symbol, then `NOP`. -/
def pushSymbols : List String → Compiler → Compiler
  | [], c => c
  | sym :: rest, c => pushSymbols rest ((pushString sym c).push_byte (.op .NOP))

/-- The loop of `compile` over `m_values`; `toString16` is `HugeNumber::toString(16)`.  A
`PageAddr` value enters neither branch of the `if` / `else if`. -/
def pushValues (toString16 : HugeNumber → String) :
    List Value → Compiler → Compiler
  | [], c => c
  | val :: rest, c =>
    let c :=
      match val with
      | .Number n => pushString (toString16 n) (c.push_byte (.op .NUMBER_TYPE))
      | .String t => pushString t (c.push_byte (.op .STRING_TYPE))
      | .PageAddr _ => c
    pushValues toString16 rest (c.push_byte (.op .NOP))

/-- The loop `for (auto inst : page)` of `compile`. -/
def pushInsts : List Inst → Compiler → Compiler
  | [], c => c
  | inst :: rest, c =>
    if inst.jump_to_page = 0 then pushInsts rest (c.push_byte inst.inst)
    else pushInsts rest (pushNumber inst.jump_to_page none c)

/-- The loop `for (auto page : m_code_pages)` of `compile`.  The flag is `true` when the
loop left the whole function through its `return`. -/
def pushPages : List (List Inst) → Compiler → Compiler × Bool
  | [], c => (c, false)
  | page :: rest, c =>
    let c := c.push_byte (.op .CODE_SEGMENT_START)
    if page.length = 0 then
      (pushNumber 0 none c, true)
    else
      let c := pushNumber (page.length % 65536) none c
      let c := pushInsts page c
      pushPages rest (c.push_byte (.op .HALT))

/-- The method `Compiler::compile()`, with the tree `m_parser.ast()` as an argument. -/
def compile (cast : List Inst → Nat) (toString16 : HugeNumber → String)
    (ast : Node) (c : Compiler) : Option Compiler := do
  let c := c.push_byte (.num 'a'.toNat)
  let c := c.push_byte (.num 'r'.toNat)
  let c := c.push_byte (.num 'k'.toNat)
  let c := c.push_byte (.op .NOP)
  let c := c.push_byte (.op .SYM_TABLE_START)
  let c := c.new_page
  let c ← _compile cast ast (.code 0) c
  let c := pushNumber (c.m_symbols.length % 65536) none c
  let c := pushSymbols c.m_symbols c
  let c := c.push_byte (.op .VAL_TABLE_START)
  let c := pushNumber (c.m_values.length % 65536) none c
  let c := pushValues toString16 c.m_values c
  let (c, returned) := pushPages c.m_code_pages c
  if returned then some c
  else if c.m_code_pages.length = 0 then
    some (pushNumber 0 none (c.push_byte (.op .CODE_SEGMENT_START)))
  else some c

/-- The slots of a page for a list of literal bytes. -/
def slots (bs : List Byte) : List Inst := bs.map Inst.ofByte

/-! ## Definitions used to state the theorems -/

/-- The state in which the parameter loop of a `fun` form starts. -/
def funHeader (c : Compiler) : Compiler :=
  let c := c.new_page
  let r := addValue (.PageAddr (c.m_code_pages.length - 1)) c
  let c := pushNumber (r.1 % 65536) none r.2
  c.emplace_back c.back (.op .NEW_ENV)

/-- The state a `while` form returns, from the state `c2` reached once the condition and the
body are compiled, and the slot count `current` read on entry. -/
def whileTail (cast : List Inst → Nat) (page : PageRef) (current : Nat) (c2 : Compiler) :
    Compiler :=
  let c := c2.emplace_back page (.op .POP_JUMP_IF_FALSE)
  let c := pushNumber (cast c.m_temp_page % 65536) (some page) c
  let c := c.splice page
  let c := c.emplace_back page (.op .JUMP)
  pushNumber (current % 65536) (some page) c

/-- The state reached by a leaf: the opcode `op`, then the index `i` on two slots. -/
def loadIndex (op : Instruction) (page : PageRef) (r : Nat × Compiler) : Compiler :=
  pushNumber (r.1 % 65536) (some page) (r.2.emplace_back page (.op op))

/-- The relation kept by every run of `_compile` with target `p` between the pages before
(`c`) and after (`c'`): no page disappears, each page that existed keeps its slots as a
prefix, and a page that existed and is not the target is left as it was. -/
def PagesKept (p : PageRef) (c c' : Compiler) : Prop :=
  c.m_code_pages.length ≤ c'.m_code_pages.length ∧
    ∀ j, j < c.m_code_pages.length →
      c.m_code_pages.getD j [] <+: c'.m_code_pages.getD j [] ∧
      (PageRef.code j ≠ p → c'.m_code_pages.getD j [] = c.m_code_pages.getD j [])

/-- A compiler whose page 0 already holds three slots, before a `while` form is compiled
into that page. -/
def whileBefore : Compiler :=
  ⟨["z"], [], [slots [.op .LOAD_SYMBOL, .num 0, .num 0]], [], []⟩

/-- The compiler after `(while c b)` is compiled into page 0 of `whileBefore`, when the
conversion of the buffer is taken to be its length. -/
def whileAfter : Compiler :=
  ⟨["z", "c", "b"], [],
    [slots [.op .LOAD_SYMBOL, .num 0, .num 0, .op .LOAD_SYMBOL, .num 0, .num 1,
      .op .POP_JUMP_IF_FALSE, .num 0, .num 3, .op .LOAD_SYMBOL, .num 0, .num 2,
      .op .JUMP, .num 0, .num 3]], [], []⟩

/-- A compiler whose page 0 already holds three slots, before a `fun` form is compiled into
that page. -/
def funBefore : Compiler :=
  ⟨["z"], [], [slots [.op .LOAD_SYMBOL, .num 0, .num 0]], [], []⟩

/-- The compiler after `(fun (x) x)` is compiled into page 0 of `funBefore`: page 0 is as
before, and the index `0x00 0x00` of the constant `PageAddr 1` is in `m_bytecode`. -/
def funAfter : Compiler :=
  ⟨["z", "x"], [.PageAddr 1],
    [slots [.op .LOAD_SYMBOL, .num 0, .num 0],
      slots [.op .NEW_ENV, .op .LET, .num 0, .num 1, .op .LOAD_SYMBOL, .num 0, .num 1,
        .op .RET]],
    [], [.num 0, .num 0]⟩

/-- The relation kept by every run of `_compile` between the tables and the output before
(`c`) and after (`c'`): entries are only appended to `m_symbols`, `m_values` and `m_bytecode`,
and a table without repeated entries stays without repeated entries. -/
def TablesKept (c c' : Compiler) : Prop :=
  c.m_symbols <+: c'.m_symbols ∧ c.m_values <+: c'.m_values ∧
    c.m_bytecode <+: c'.m_bytecode ∧
    (c.m_symbols.Nodup → c'.m_symbols.Nodup) ∧ (c.m_values.Nodup → c'.m_values.Nodup)

/-- Modelled from the spec: `Value::operator==`, declared in `Value.hpp` and defined nowhere in
the sources: structural equality, the type tag first and then the payload. -/
def Value.eq : Value → Value → Bool
  | .Number m, .Number n => decide (m = n)
  | .String s, .String t => decide (s = t)
  | .PageAddr i, .PageAddr j => decide (i = j)
  | _, _ => false

/-- Modelled from the spec: the constructor `Value(const T&)` applied to a literal node, whose
definition is not in the sources: a `Number` node gives a `Number` value and a `String` node a
`String` value; the other nodes carry no literal. -/
def valueOfNode : Node → Option Value
  | .Number n => some (.Number n)
  | .String s => some (.String s)
  | _ => none

/-- The overload `Compiler::addValue(Node x)`. -/
def addValueNode (x : Node) (c : Compiler) : Option (Nat × Compiler) :=
  (valueOfNode x).map (fun v => addValue v c)

/-- The overload `Compiler::addValue(std::size_t page_id)`. -/
def addValuePage (page_id : Nat) (c : Compiler) : Nat × Compiler :=
  addValue (.PageAddr page_id) c

/-- The state in which `compile` calls `_compile`: the header `ark`, `NOP`,
`SYM_TABLE_START` and the empty page 0 are in place. -/
def prologue (c : Compiler) : Compiler :=
  (((((c.push_byte (.num 'a'.toNat)).push_byte (.num 'r'.toNat)).push_byte
    (.num 'k'.toNat)).push_byte (.op .NOP)).push_byte (.op .SYM_TABLE_START)).new_page

/-- The first half of what `compile` does once `_compile` has returned: the symbol table and
the value table are written to the output. -/
def tablesOut (toString16 : HugeNumber → String) (c : Compiler) : Compiler :=
  let c := pushNumber (c.m_symbols.length % 65536) none c
  let c := pushSymbols c.m_symbols c
  let c := c.push_byte (.op .VAL_TABLE_START)
  let c := pushNumber (c.m_values.length % 65536) none c
  pushValues toString16 c.m_values c

/-- What `compile` does once `_compile` has returned: the two tables, then the code
segments. -/
def finish (toString16 : HugeNumber → String) (c : Compiler) : Compiler :=
  let c := tablesOut toString16 c
  let r := pushPages c.m_code_pages c
  if r.2 then r.1
  else if r.1.m_code_pages.length = 0 then
    pushNumber 0 none (r.1.push_byte (.op .CODE_SEGMENT_START))
  else r.1

/-- The relation between the compiler before (`c`) and after (`c'`) a step of the serializer:
only `m_bytecode` changes, and only by appending. -/
def OutputOnly (c c' : Compiler) : Prop :=
  c'.m_symbols = c.m_symbols ∧ c'.m_values = c.m_values ∧
    c'.m_code_pages = c.m_code_pages ∧ c'.m_temp_page = c.m_temp_page ∧
    c.m_bytecode <+: c'.m_bytecode

/-- What a use site names: a symbol (a symbol leaf, the target of `set` or `def`, a
parameter of `fun`) or a literal value (a string or number leaf). -/
inductive UseKey where
  | symbol (name : String)
  | literal (v : Value)
  deriving DecidableEq

/-- The last two slots of a page: the operand that `pushNumber(i, &page)` has just written
when it was the last write to the page. -/
def lastTwo (page : List Inst) : List Inst :=
  page.drop (page.length - 2)

/-- The two slots that hold the 16-bit number `n`, high half first. -/
def operandSlots (n : Nat) : List Inst :=
  slots [.num ((n % 65536 &&& 0xff00) >>> 8), .num (n % 65536 &&& 0x00ff)]

/-- The position of what a use site names in the tables `T` and `V`: the position of the
first entry equal to it. -/
def UseKey.index (T : List String) (V : List Value) : UseKey → Nat
  | .symbol name => find T name
  | .literal v => find V v

/-- What a use site names is an entry of the tables `T` and `V`. -/
def UseKey.isIn (T : List String) (V : List Value) : UseKey → Prop
  | .symbol name => name ∈ T
  | .literal v => v ∈ V

/-- The use sites of the parameter loop of a `fun` form run from the state `c`: one per
formal, with the two slots found at the end of `m_code_pages.back()` once the iteration of
that formal (the run `pushParams [it]`) has written its index. -/
def paramSites : List Node → Compiler → List (UseKey × List Inst)
  | [], _ => []
  | it :: its, c =>
    match getStringVal it, pushParams [it] c with
    | some name, some c1 => (.symbol name, lastTwo (c1.page c1.back)) :: paramSites its c1
    | _, _ => []

mutual

/-- The use sites met by the run `_compile cast x page c`, in the order of the traversal,
each with the two operand slots that the run has written for it.  The operand is read back
from the page the code writes it to, right after the write: the end of the target page once
`_compile` has returned from a leaf or from a `set` / `def` form, the end of the function's
page for a parameter.  The states in which the sub-expressions are compiled are those of
`_compile`. -/
def useSites (cast : List Inst → Nat) :
    Node → PageRef → Compiler → List (UseKey × List Inst)
  | .Symbol name, page, c =>
    match _compile cast (.Symbol name) page c with
    | some c' => [(.symbol name, lastTwo (c'.page page))]
    | none => []
  | .String s, page, c =>
    match _compile cast (.String s) page c with
    | some c' => [(.literal (.String s), lastTwo (c'.page page))]
    | none => []
  | .Number n, page, c =>
    match _compile cast (.Number n) page c with
    | some c' => [(.literal (.Number n), lastTwo (c'.page page))]
    | none => []
  | .Keyword _, _, _ => []
  | .List [], _, _ => []
  | .List (.Keyword .If :: cond :: thn :: els :: _), page, c =>
    useSites cast cond page c ++
      match _compile cast cond page c with
      | none => []
      | some c1 =>
        useSites cast els .temp (c1.emplace_back page (.op .POP_JUMP_IF_TRUE)) ++
          match _compile cast els .temp (c1.emplace_back page (.op .POP_JUMP_IF_TRUE)) with
          | none => []
          | some c2 =>
            useSites cast thn page
              ((pushNumber (c2.m_temp_page.length % 65536) (some page) c2).splice page)
  | .List (.Keyword .Set :: target :: value :: tail), page, c =>
    match getStringVal target with
    | none => []
    | some name =>
      useSites cast value page (addSymbol name c).2 ++
        match _compile cast (.List (.Keyword .Set :: target :: value :: tail)) page c with
        | some c' => [(.symbol name, lastTwo (c'.page page))]
        | none => []
  | .List (.Keyword .Def :: target :: value :: tail), page, c =>
    match getStringVal target with
    | none => []
    | some name =>
      useSites cast value page (addSymbol name c).2 ++
        match _compile cast (.List (.Keyword .Def :: target :: value :: tail)) page c with
        | some c' => [(.symbol name, lastTwo (c'.page page))]
        | none => []
  | .List (.Keyword .Fun :: params :: body :: _), _, c =>
    paramSites (list params) (funHeader c) ++
      match pushParams (list params) (funHeader c) with
      | none => []
      | some c1 => useSites cast body c1.back c1
  | .List (.Keyword .Begin :: rest), page, c => useSitesEach cast rest page c
  | .List (.Keyword .While :: cond :: body :: _), page, c =>
    useSites cast cond page c ++
      match _compile cast cond page c with
      | none => []
      | some c1 => useSites cast body .temp c1
  | .List (.Keyword _ :: _), _, _ => []
  | .List (proc :: args), page, c =>
    useSites cast proc .temp c ++
      match _compile cast proc .temp c with
      | none => []
      | some c1 => useSitesEach cast args (c1.alive c.m_code_pages.length page) c1

/-- The use sites met by the loop `_compileEach cast xs page c`. -/
def useSitesEach (cast : List Inst → Nat) :
    List Node → PageRef → Compiler → List (UseKey × List Inst)
  | [], _, _ => []
  | x :: xs, page, c =>
    useSites cast x page c ++
      match _compile cast x page c with
      | none => []
      | some c1 => useSitesEach cast xs (c1.alive c.m_code_pages.length page) c1

end

/-- Every use site of the list `l` names an entry of the tables `T` and `V` and carries, as
its two operand slots, the two halves of the position of that entry. -/
def SitesOk (T : List String) (V : List Value) (l : List (UseKey × List Inst)) : Prop :=
  ∀ e ∈ l, e.1.isIn T V ∧ e.2 = operandSlots (e.1.index T V)

/-- A program in which every kind of use site occurs and the symbols `x`, `y` and the string
`"t"` are each used more than once:
`(fun (a x) (begin (def y "s") (set x "t") (x y "t")))`. -/
def dedupProgram : Node :=
  .List [.Keyword .Fun, .List [.Symbol "a", .Symbol "x"],
    .List [.Keyword .Begin,
      .List [.Keyword .Def, .Symbol "y", .String "s"],
      .List [.Keyword .Set, .Symbol "x", .String "t"],
      .List [.Symbol "x", .Symbol "y", .String "t"]]]

/-- The compiler after `compile` has run on `dedupProgram` from a fresh compiler. -/
def dedupAfter : Compiler :=
  ⟨["a", "x", "y"], [.PageAddr 1, .String "s", .String "t"],
    [slots [],
      slots [.op .NEW_ENV, .op .LET, .num 0, .num 0, .op .LET, .num 0, .num 1,
        .op .LOAD_CONST, .num 0, .num 1, .op .LET, .num 0, .num 2,
        .op .LOAD_CONST, .num 0, .num 2, .op .STORE, .num 0, .num 1,
        .op .LOAD_SYMBOL, .num 0, .num 2, .op .LOAD_CONST, .num 0, .num 2,
        .op .LOAD_SYMBOL, .num 0, .num 1, .op .CALL, .op .RET, .op .RET]],
    [],
    [.num 97, .num 114, .num 107, .op .NOP, .op .SYM_TABLE_START, .num 0, .num 0,
      .num 0, .num 2, .num 0, .num 3, .num 97, .op .NOP, .num 120, .op .NOP,
      .num 121, .op .NOP,
      .op .VAL_TABLE_START, .num 0, .num 3, .op .NOP, .op .STRING_TYPE, .num 115, .op .NOP,
      .op .STRING_TYPE, .num 116, .op .NOP,
      .op .CODE_SEGMENT_START, .num 0, .num 0]⟩

/-- The use sites of `dedupProgram`, in the order of the traversal, with the operand slots
written for each: the parameters `a` and `x`, the literal `"s"` and the target `y` of `def`,
the literal `"t"` and the target `x` of `set`, then the callee `x` and the arguments `y` and
`"t"` of the call. -/
def dedupSites : List (UseKey × List Inst) :=
  [(.symbol "a", slots [.num 0, .num 0]), (.symbol "x", slots [.num 0, .num 1]),
    (.literal (.String "s"), slots [.num 0, .num 1]), (.symbol "y", slots [.num 0, .num 2]),
    (.literal (.String "t"), slots [.num 0, .num 2]), (.symbol "x", slots [.num 0, .num 1]),
    (.symbol "x", slots [.num 0, .num 1]), (.symbol "y", slots [.num 0, .num 2]),
    (.literal (.String "t"), slots [.num 0, .num 2])]

/-- The 16-bit number held by the two slots at positions `k` and `k + 1` of a page, high half
first; `none` when one of the two slots is missing or is not a number. -/
def operand16 (page : List Inst) (k : Nat) : Option Nat :=
  match page[k]?, page[k + 1]? with
  | some ⟨.num hi, _⟩, some ⟨.num lo, _⟩ => some (hi * 256 + lo)
  | _, _ => none

/-- The slot reached from the jump at position `k` by skipping as many slots as its operand
says, counted from the slot just after the operand (position `k + 3`). -/
def skipTarget (page : List Inst) (k : Nat) : Option Nat :=
  (operand16 page (k + 1)).map (fun n => k + 3 + n)

/-- An assignment of numbers to the enumerators that gives `NOP` the value 0. -/
def nopZero : Instruction → Nat
  | .NOP => 0
  | _ => 1

/-- The designated page exists: `m_temp_page` always does, a code page when its index is in
range. -/
def Compiler.hasPage (c : Compiler) : PageRef → Prop
  | .temp => True
  | .code i => i < c.m_code_pages.length
  | .dangling => False

/-- The compiler after `compile` has run on `(f a)` from a fresh compiler. -/
def callAfter : Compiler :=
  ⟨["f", "a"], [],
    [slots [.op .LOAD_SYMBOL, .num 0, .num 1, .op .LOAD_SYMBOL, .num 0, .num 0, .op .CALL]],
    [],
    [.num 97, .num 114, .num 107, .op .NOP, .op .SYM_TABLE_START, .num 0, .num 1,
      .num 0, .num 2, .num 102, .op .NOP, .num 97, .op .NOP,
      .op .VAL_TABLE_START, .num 0, .num 0,
      .op .CODE_SEGMENT_START, .num 0, .num 7,
      .op .LOAD_SYMBOL, .num 0, .num 1, .op .LOAD_SYMBOL, .num 0, .num 0, .op .CALL,
      .op .HALT]⟩

/-- The relation between the compiler before (`c`) and after (`c'`) a step that leaves
`m_temp_page` exactly as it was or empty. -/
def TempKept (c c' : Compiler) : Prop :=
  c'.m_temp_page = c.m_temp_page ∨ c'.m_temp_page = []

/-- A compiler with one empty page, whose `m_temp_page` holds one slot. -/
def tempBefore : Compiler :=
  ⟨[], [], [[]], slots [.op .NOP], []⟩

/-- The compiler after `(f a)` is compiled into page 0 of `tempBefore`: `m_temp_page` is
empty. -/
def tempAfter : Compiler :=
  ⟨["f", "a"], [],
    [slots [.op .LOAD_SYMBOL, .num 0, .num 1, .op .NOP, .op .LOAD_SYMBOL, .num 0, .num 0,
      .op .CALL]],
    [], [.num 0, .num 1]⟩

/-- The run of the loop `for (...) _compile(e, page)` over `e1 ... en`, cut into its steps:
`codes` lists, in order, the slots that compiling each `ek` appended to the page `p`, from
the state its predecessors left; `c'` is the state after the last one. -/
def EachAppends (cast : List Inst → Nat) (p : PageRef) :
    List Node → Compiler → List (List Inst) → Compiler → Prop
  | [], c, codes, c' => codes = [] ∧ c' = c
  | x :: xs, c, codes, c' =>
    ∃ code rest c1, codes = code :: rest ∧ _compile cast x p c = some c1 ∧
      c1.page p = c.page p ++ code ∧ EachAppends cast p xs c1 rest c'

mutual

/-- The number of `fun` forms of a node that stand in a compiled position: the positions
`_compile` descends into (the three branches of `if`, the value of `set` and `def`, the body
of `fun`, every element of `begin`, the condition and the body of `while`, the callee and the
arguments of a call). -/
def funForms : Node → Nat
  | .List (.Keyword .If :: cond :: thn :: els :: _) =>
    funForms cond + funForms els + funForms thn
  | .List (.Keyword .Set :: _ :: value :: _) => funForms value
  | .List (.Keyword .Def :: _ :: value :: _) => funForms value
  | .List (.Keyword .Fun :: _ :: body :: _) => 1 + funForms body
  | .List (.Keyword .Begin :: rest) => funFormsEach rest
  | .List (.Keyword .While :: cond :: body :: _) => funForms cond + funForms body
  | .List (.Keyword _ :: _) => 0
  | .List (proc :: args) => funForms proc + funFormsEach args
  | _ => 0

/-- The number of `fun` forms in compiled position in a sequence of nodes. -/
def funFormsEach : List Node → Nat
  | [] => 0
  | x :: xs => funForms x + funFormsEach xs

end

/-- A compiler whose page 0 already holds three slots, before a `begin` form is compiled
into that page. -/
def beginBefore : Compiler :=
  ⟨["z"], [], [slots [.op .LOAD_SYMBOL, .num 0, .num 0]], [], []⟩

/-- The compiler after `(begin a (f b))` is compiled into page 0 of `beginBefore`. -/
def beginAfter : Compiler :=
  ⟨["z", "a", "f", "b"], [],
    [slots [.op .LOAD_SYMBOL, .num 0, .num 0, .op .LOAD_SYMBOL, .num 0, .num 1,
      .op .LOAD_SYMBOL, .num 0, .num 3, .op .LOAD_SYMBOL, .num 0, .num 2, .op .CALL,
      .op .RET]],
    [], [.num 0, .num 1]⟩

/-- A program with two `fun` forms, one inside the other: `(begin (fun (x) (fun () x)))`. -/
def twoFunProgram : Node :=
  .List [.Keyword .Begin,
    .List [.Keyword .Fun, .List [.Symbol "x"], .List [.Keyword .Fun, .List [], .Symbol "x"]]]

/-- A program with two `fun` forms, one the body of the other: `(fun (x) (fun (y) y))`. -/
def nestedFunProgram : Node :=
  .List [.Keyword .Fun, .List [.Symbol "x"],
    .List [.Keyword .Fun, .List [.Symbol "y"], .Symbol "y"]]

/-- The compiler after `compile` has run on `nestedFunProgram` from a fresh compiler. -/
def nestedFunAfter : Compiler :=
  ⟨["x", "y"], [.PageAddr 1, .PageAddr 2],
    [slots [], slots [.op .NEW_ENV, .op .LET, .num 0, .num 0],
      slots [.op .NEW_ENV, .op .LET, .num 0, .num 1, .op .LOAD_SYMBOL, .num 0, .num 1,
        .op .RET, .op .RET]],
    [],
    [.num 97, .num 114, .num 107, .op .NOP, .op .SYM_TABLE_START, .num 0, .num 0,
      .num 0, .num 1, .num 0, .num 2, .num 120, .op .NOP, .num 121, .op .NOP,
      .op .VAL_TABLE_START, .num 0, .num 2, .op .NOP, .op .NOP,
      .op .CODE_SEGMENT_START, .num 0, .num 0]⟩

/-! ## Interning: `std::find` and `addSymbol` -/

theorem find_le {α : Type} [DecidableEq α] (xs : List α) (a : α) : find xs a ≤ xs.length := by
  induction xs with
  | nil => simp [find]
  | cons b bs ih =>
    by_cases hb : b = a
    · simp [find, hb]
    · simp [find, hb, ih]

theorem find_eq_length_iff {α : Type} [DecidableEq α] (xs : List α) (a : α) :
    find xs a = xs.length ↔ a ∉ xs := by
  induction xs with
  | nil => simp [find]
  | cons b bs ih =>
    by_cases hb : b = a
    · simp [find, hb]
    · have hab : ¬ a = b := fun h => hb h.symm
      simp [find, hb, hab, ih]

theorem find_getElem {α : Type} [DecidableEq α] (xs : List α) (a : α) (h : a ∈ xs) :
    xs[find xs a]? = some a := by
  induction xs with
  | nil => simp at h
  | cons b bs ih =>
    by_cases hb : b = a
    · simp [find, hb]
    · have hab : ¬ a = b := fun h => hb h.symm
      have hmem : a ∈ bs := by simpa [hab] using h
      simpa [find, hb] using ih hmem

theorem find_first {α : Type} [DecidableEq α] (xs : List α) (a : α) (j : Nat)
    (h : j < find xs a) : xs[j]? ≠ some a := by
  induction xs generalizing j with
  | nil => simp
  | cons b bs ih =>
    by_cases hb : b = a
    · simp [find, hb] at h
    · cases j with
      | zero => simpa using hb
      | succ k =>
        have hk : k < find bs a := by simpa [find, hb] using h
        simpa using ih k hk

/-- C10: `addSymbol(name)` on any symbol table.  When `name` is present the compiler is left
as it was and the result is the index of the first occurrence of `name`; otherwise `name` is
appended at the end (every earlier entry stays at its index, nothing else changes) and the
result is the old table length.  In both cases the result is a valid index of the resulting
table, and the entry there is `name`. -/
theorem addSymbol_intern (name : String) (c : Compiler) :
    (if name ∈ c.m_symbols then
        (addSymbol name c).2 = c ∧
        c.m_symbols[(addSymbol name c).1]? = some name ∧
        ∀ j, j < (addSymbol name c).1 → c.m_symbols[j]? ≠ some name
      else
        (addSymbol name c).2 = { c with m_symbols := c.m_symbols ++ [name] } ∧
        (addSymbol name c).1 = c.m_symbols.length ∧
        (addSymbol name c).1 + 1 = (addSymbol name c).2.m_symbols.length ∧
        ∀ j, j < c.m_symbols.length → (addSymbol name c).2.m_symbols[j]? = c.m_symbols[j]?) ∧
    (addSymbol name c).1 < (addSymbol name c).2.m_symbols.length ∧
    (addSymbol name c).2.m_symbols[(addSymbol name c).1]? = some name := by
  by_cases hmem : name ∈ c.m_symbols
  · have hne : find c.m_symbols name ≠ c.m_symbols.length := fun h =>
      (find_eq_length_iff c.m_symbols name).1 h hmem
    have hget := find_getElem c.m_symbols name hmem
    have hlt : find c.m_symbols name < c.m_symbols.length :=
      lt_of_le_of_ne (find_le c.m_symbols name) hne
    have hres : addSymbol name c = (find c.m_symbols name, c) := by
      simp [addSymbol, hne]
    rw [if_pos hmem, hres]
    exact ⟨⟨rfl, hget, fun j hj => find_first c.m_symbols name j hj⟩, hlt, hget⟩
  · have heq : find c.m_symbols name = c.m_symbols.length :=
      (find_eq_length_iff c.m_symbols name).2 hmem
    have hres : addSymbol name c =
        (c.m_symbols.length, { c with m_symbols := c.m_symbols ++ [name] }) := by
      simp [addSymbol, heq]
    rw [if_neg hmem, hres]
    refine ⟨⟨rfl, rfl, by simp, ?_⟩, by simp, by simp⟩
    intro j hj
    simp [List.getElem?_append_left hj]

/-! ## The code evaluated on small programs -/

/-- C1: the program `(f a)` compiled by a fresh compiler.  While `_compile` runs, the call
form pushes its argument count `0x00 0x01` on `m_bytecode`, so these two bytes follow
`SYM_TABLE_START` (bytes 5-6) and the size `0x00 0x02` of the final symbol table
`["f", "a"]` only comes at bytes 7-8. -/
theorem compile_call_bytecode (cast : List Inst → Nat) (toString16 : HugeNumber → String) :
    (compile cast toString16 (.List [.Symbol "f", .Symbol "a"]) Compiler.fresh).map
        (fun c => (c.m_symbols, c.m_bytecode)) =
      some (["f", "a"],
        [.num 97, .num 114, .num 107, .op .NOP, .op .SYM_TABLE_START,
          .num 0, .num 1, .num 0, .num 2, .num 102, .op .NOP, .num 97, .op .NOP,
          .op .VAL_TABLE_START, .num 0, .num 0,
          .op .CODE_SEGMENT_START, .num 0, .num 7,
          .op .LOAD_SYMBOL, .num 0, .num 1, .op .LOAD_SYMBOL, .num 0, .num 0, .op .CALL,
          .op .HALT]) :=
  of_decide_eq_true (Eq.refl true)

/-- C2: the program `(fun (x) x)` compiled by a fresh compiler.  Two pages are allocated,
page 0 stays empty, and the output stops after `CODE_SEGMENT_START 0x00 0x00`: the segment
of page 0 has no `HALT` and page 1 is not written at all. -/
theorem compile_root_fun_bytecode (cast : List Inst → Nat)
    (toString16 : HugeNumber → String) :
    (compile cast toString16
        (.List [.Keyword .Fun, .List [.Symbol "x"], .Symbol "x"]) Compiler.fresh).map
        (fun c => (c.m_code_pages, c.m_bytecode)) =
      some ([[], slots [.op .NEW_ENV, .op .LET, .num 0, .num 0,
          .op .LOAD_SYMBOL, .num 0, .num 0, .op .RET]],
        [.num 97, .num 114, .num 107, .op .NOP, .op .SYM_TABLE_START,
          .num 0, .num 0, .num 0, .num 1, .num 120, .op .NOP,
          .op .VAL_TABLE_START, .num 0, .num 1, .op .NOP,
          .op .CODE_SEGMENT_START, .num 0, .num 0]) :=
  of_decide_eq_true (Eq.refl true)

/-- C3: the form `(f (if c t e))` compiled into page 0.  The callee `f` is waiting in
`m_temp_page` when the else-branch is compiled there, so the operand of `POP_JUMP_IF_TRUE`
is 6 although the code of `e` has 3 slots, and the code of `f` is copied between the operand
and the code of `e`; nothing of `f` is left to be copied before `CALL`. -/
theorem compile_if_in_call_page (cast : List Inst → Nat) :
    (_compile cast
        (.List [.Symbol "f", .List [.Keyword .If, .Symbol "c", .Symbol "t", .Symbol "e"]])
        (.code 0) Compiler.fresh.new_page).map (fun c => (c.m_symbols, c.m_code_pages)) =
      some (["f", "c", "e", "t"],
        [slots [.op .LOAD_SYMBOL, .num 0, .num 1, .op .POP_JUMP_IF_TRUE, .num 0, .num 6,
          .op .LOAD_SYMBOL, .num 0, .num 0, .op .LOAD_SYMBOL, .num 0, .num 2,
          .op .LOAD_SYMBOL, .num 0, .num 3, .op .CALL]]) :=
  of_decide_eq_true (Eq.refl true)

/-- C4: the form `(f (g a))` compiled into page 0.  The page receives the code of `a`, of
`f`, of `g`, then two `CALL`: the code of the outer callee `f` comes before the code of `g`
and before the inner `CALL`, not after the code of the argument `(g a)`. -/
theorem compile_nested_call_page (cast : List Inst → Nat) :
    (_compile cast (.List [.Symbol "f", .List [.Symbol "g", .Symbol "a"]])
        (.code 0) Compiler.fresh.new_page).map (fun c => (c.m_symbols, c.m_code_pages)) =
      some (["f", "g", "a"],
        [slots [.op .LOAD_SYMBOL, .num 0, .num 2, .op .LOAD_SYMBOL, .num 0, .num 0,
          .op .LOAD_SYMBOL, .num 0, .num 1, .op .CALL, .op .CALL]]) :=
  of_decide_eq_true (Eq.refl true)

/-- C5: the form `(f a b)` compiled into page 0.  The page ends with the `CALL` slot; the
argument count `0x00 0x02` is appended to `m_bytecode`, not to the page. -/
theorem compile_call_count_destination (cast : List Inst → Nat) :
    (_compile cast (.List [.Symbol "f", .Symbol "a", .Symbol "b"])
        (.code 0) Compiler.fresh.new_page).map (fun c => (c.m_code_pages, c.m_bytecode)) =
      some ([slots [.op .LOAD_SYMBOL, .num 0, .num 1, .op .LOAD_SYMBOL, .num 0, .num 2,
          .op .LOAD_SYMBOL, .num 0, .num 0, .op .CALL]],
        [.num 0, .num 2]) :=
  of_decide_eq_true (Eq.refl true)

/-- C6: the form `(fun (x) (fun (y) y))` compiled into page 0.  Page 1, allocated for the
outer form, holds `NEW_ENV LET 0 0` and nothing more; the `RET` of the outer form is
appended to page 2, the page of the inner form, which ends with two `RET`. -/
theorem compile_nested_fun_pages (cast : List Inst → Nat) :
    (_compile cast
        (.List [.Keyword .Fun, .List [.Symbol "x"],
          .List [.Keyword .Fun, .List [.Symbol "y"], .Symbol "y"]])
        (.code 0) Compiler.fresh.new_page).map (fun c => c.m_code_pages) =
      some [[], slots [.op .NEW_ENV, .op .LET, .num 0, .num 0],
        slots [.op .NEW_ENV, .op .LET, .num 0, .num 1, .op .LOAD_SYMBOL, .num 0, .num 1,
          .op .RET, .op .RET]] :=
  of_decide_eq_true (Eq.refl true)

/-! ## Page counts under the elementary steps -/

theorem appendAt_length (ps : List (List Inst)) (i : Nat) (s : List Inst) :
    (appendAt ps i s).length = ps.length := by
  induction ps generalizing i with
  | nil => simp [appendAt]
  | cons p ps ih =>
    cases i with
    | zero => simp [appendAt]
    | succ k => simp [appendAt, ih]

theorem extend_pages_length (c : Compiler) (p : PageRef) (s : List Inst) :
    (c.extend p s).m_code_pages.length = c.m_code_pages.length := by
  cases p with
  | temp => rfl
  | dangling => rfl
  | code i => simp [Compiler.extend, appendAt_length]

theorem pushNumber_pages_length (c : Compiler) (n : Nat) (p : Option PageRef) :
    (pushNumber n p c).m_code_pages.length = c.m_code_pages.length := by
  cases p with
  | none => rfl
  | some q =>
    simp only [pushNumber, Compiler.emplace_back, extend_pages_length]

theorem emplace_pages_length (c : Compiler) (p : PageRef) (b : Byte) :
    (c.emplace_back p b).m_code_pages.length = c.m_code_pages.length :=
  extend_pages_length c p _

theorem splice_pages_length (c : Compiler) (p : PageRef) :
    (c.splice p).m_code_pages.length = c.m_code_pages.length :=
  extend_pages_length c p _

theorem addSymbol_pages (name : String) (c : Compiler) :
    (addSymbol name c).2.m_code_pages = c.m_code_pages := by
  unfold addSymbol
  dsimp only
  split <;> rfl

theorem addValue_pages (v : Value) (c : Compiler) :
    (addValue v c).2.m_code_pages = c.m_code_pages := by
  unfold addValue
  dsimp only
  split <;> rfl

/-! ## Writes through a reference argument -/

theorem hasPage_extend (c : Compiler) (q p : PageRef) (s : List Inst) :
    (c.extend q s).hasPage p ↔ c.hasPage p := by
  cases p with
  | temp => exact Iff.rfl
  | dangling => exact Iff.rfl
  | code i =>
    show i < (c.extend q s).m_code_pages.length ↔ i < c.m_code_pages.length
    rw [extend_pages_length]

theorem write_eq_some {c c' : Compiler} {p : PageRef} {s : List Inst} :
    c.write p s = some c' ↔ c.hasPage p ∧ c.extend p s = c' := by
  cases p with
  | temp => simp [Compiler.write, Compiler.hasPage]
  | dangling => simp [Compiler.write, Compiler.hasPage]
  | code i =>
    by_cases h : i < c.m_code_pages.length <;> simp [Compiler.write, Compiler.hasPage, h]

theorem emplaceTo_eq_some {c c' : Compiler} {p : PageRef} {b : Byte} :
    c.emplaceTo p b = some c' ↔ c.hasPage p ∧ c.emplace_back p b = c' :=
  write_eq_some

theorem pushNumberTo_eq_some {c c' : Compiler} {p : PageRef} {n : Nat} :
    pushNumberTo n p c = some c' ↔ c.hasPage p ∧ pushNumber n (some p) c = c' := by
  simp only [pushNumberTo, Option.bind_eq_bind, Option.bind_eq_some, emplaceTo_eq_some]
  constructor
  · rintro ⟨c1, ⟨hp, rfl⟩, _, rfl⟩
    exact ⟨hp, rfl⟩
  · rintro ⟨hp, rfl⟩
    exact ⟨_, ⟨hp, rfl⟩, (hasPage_extend c p p _).2 hp, rfl⟩

theorem spliceTo_eq_some {c c' : Compiler} {p : PageRef} :
    c.spliceTo p = some c' ↔
      (c.m_temp_page = [] ∨ (c.hasPage p ∧ p ≠ .temp)) ∧ c.splice p = c' := by
  by_cases ht : c.m_temp_page = []
  · simp [Compiler.spliceTo, ht]
  · cases p with
    | temp => simp [Compiler.spliceTo, ht]
    | dangling => simp [Compiler.spliceTo, ht, Compiler.hasPage]
    | code i =>
      by_cases h : i < c.m_code_pages.length <;> simp [Compiler.spliceTo, ht, Compiler.hasPage, h]

theorem alive_self (c : Compiler) (p : PageRef) : c.alive c.m_code_pages.length p = p := by
  cases p <;> simp [Compiler.alive]

theorem alive_cases (c : Compiler) (size : Nat) (p : PageRef) :
    c.alive size p = p ∨ c.alive size p = .dangling := by
  cases p with
  | temp => exact Or.inl rfl
  | dangling => exact Or.inl rfl
  | code i =>
    by_cases h : c.m_code_pages.length = size
    · exact Or.inl (by simp [Compiler.alive, h])
    · exact Or.inr (by simp [Compiler.alive, h])

theorem alive_congr {c c' : Compiler} (size : Nat) (p : PageRef)
    (h : c'.m_code_pages.length = c.m_code_pages.length) : c'.alive size p = c.alive size p := by
  cases p <;> simp [Compiler.alive, h]

theorem alive_ne_temp (c : Compiler) (size : Nat) (p : PageRef) (h : p ≠ .temp) :
    c.alive size p ≠ .temp := by
  rcases alive_cases c size p with e | e <;> rw [e]
  · exact h
  · simp

theorem alive_of_hasPage {c : Compiler} {size : Nat} {p : PageRef}
    (h : c.hasPage (c.alive size p)) : c.alive size p = p ∧ c.hasPage p := by
  rcases alive_cases c size p with e | e
  · rw [e] at h
    exact ⟨e, h⟩
  · rw [e] at h
    exact absurd h (by simp [Compiler.hasPage])

theorem hasPage_of_length {c c' : Compiler} {p : PageRef}
    (h : c'.m_code_pages.length = c.m_code_pages.length) (hp : c'.hasPage p) : c.hasPage p := by
  cases p with
  | temp => trivial
  | dangling => exact hp
  | code i =>
    have : i < c'.m_code_pages.length := hp
    show i < c.m_code_pages.length
    omega

theorem hasPage_addSymbol {c : Compiler} {p : PageRef} {name : String}
    (hp : (addSymbol name c).2.hasPage p) : c.hasPage p :=
  hasPage_of_length (by rw [addSymbol_pages]) hp

theorem hasPage_addValue {c : Compiler} {p : PageRef} {v : Value}
    (hp : (addValue v c).2.hasPage p) : c.hasPage p :=
  hasPage_of_length (by rw [addValue_pages]) hp

theorem alive_emplace_back (c : Compiler) (q : PageRef) (b : Byte) (size : Nat)
    (p : PageRef) : (c.emplace_back q b).alive size p = c.alive size p :=
  alive_congr _ _ (emplace_pages_length _ _ _)

theorem alive_pushNumber (c : Compiler) (n : Nat) (q : Option PageRef) (size : Nat)
    (p : PageRef) : (pushNumber n q c).alive size p = c.alive size p :=
  alive_congr _ _ (pushNumber_pages_length _ _ _)

theorem alive_splice (c : Compiler) (q : PageRef) (size : Nat) (p : PageRef) :
    (c.splice q).alive size p = c.alive size p :=
  alive_congr _ _ (splice_pages_length _ _)

/-! ## Rule induction over `_compile` -/

/-- Induction on the successful runs of `_compile` and of its loops: a relation between the
node, the target page, the state before and the state after holds of every run as soon as
each form of the source establishes it from the runs of its sub-expressions.  A run that
succeeds writes only through references that are still valid, which each case records
(`hasPage`). -/
theorem compile_induction (cast : List Inst → Nat)
    (P : Node → PageRef → Compiler → Compiler → Prop)
    (Q : List Node → PageRef → Compiler → Compiler → Prop)
    (hSymbol : ∀ name page c, c.hasPage page →
      P (.Symbol name) page c (loadIndex .LOAD_SYMBOL page (addSymbol name c)))
    (hString : ∀ s page c, c.hasPage page →
      P (.String s) page c (loadIndex .LOAD_CONST page (addValue (.String s) c)))
    (hNumber : ∀ n page c, c.hasPage page →
      P (.Number n) page c (loadIndex .LOAD_CONST page (addValue (.Number n) c)))
    (hKeyword : ∀ k page c, c.hasPage page →
      P (.Keyword k) page c (c.emplace_back page (.op .NOP)))
    (hNil : ∀ page c, c.hasPage page → P (.List []) page c (c.emplace_back page (.op .NOP)))
    (hIf : ∀ cond thn els tail page c c1 c2 c3,
      _compile cast cond page c = some c1 → P cond page c c1 → c1.hasPage page →
      _compile cast els .temp (c1.emplace_back page (.op .POP_JUMP_IF_TRUE)) = some c2 →
      P els .temp (c1.emplace_back page (.op .POP_JUMP_IF_TRUE)) c2 → c2.hasPage page →
      page ≠ .temp →
      _compile cast thn page
        ((pushNumber (c2.m_temp_page.length % 65536) (some page) c2).splice page) = some c3 →
      P thn page ((pushNumber (c2.m_temp_page.length % 65536) (some page) c2).splice page) c3 →
      P (.List (.Keyword .If :: cond :: thn :: els :: tail)) page c c3)
    (hSet : ∀ target value tail page c name c1,
      getStringVal target = some name →
      _compile cast value page (addSymbol name c).2 = some c1 →
      P value page (addSymbol name c).2 c1 → c1.hasPage page →
      P (.List (.Keyword .Set :: target :: value :: tail)) page c
        (loadIndex .STORE page ((addSymbol name c).1, c1)))
    (hDef : ∀ target value tail page c name c1,
      getStringVal target = some name →
      _compile cast value page (addSymbol name c).2 = some c1 →
      P value page (addSymbol name c).2 c1 → c1.hasPage page →
      P (.List (.Keyword .Def :: target :: value :: tail)) page c
        (loadIndex .LET page ((addSymbol name c).1, c1)))
    (hFun : ∀ params body tail page c c1 c2,
      pushParams (list params) (funHeader c) = some c1 →
      _compile cast body c1.back c1 = some c2 → P body c1.back c1 c2 →
      P (.List (.Keyword .Fun :: params :: body :: tail)) page c
        (c2.emplace_back c2.back (.op .RET)))
    (hBegin : ∀ rest page c c1,
      _compileEach cast rest page c = some c1 → Q rest page c c1 → c1.hasPage page →
      c1.alive c.m_code_pages.length page = page →
      P (.List (.Keyword .Begin :: rest)) page c (c1.emplace_back page (.op .RET)))
    (hWhile : ∀ cond body tail page c c1 c2,
      _compile cast cond page c = some c1 → P cond page c c1 →
      _compile cast body .temp c1 = some c2 → P body .temp c1 c2 → c2.hasPage page →
      page ≠ .temp →
      P (.List (.Keyword .While :: cond :: body :: tail)) page c
        (whileTail cast page (c.page page).length c2))
    (hCall : ∀ proc args page c c1 c2,
      (∀ k, proc ≠ .Keyword k) →
      _compile cast proc .temp c = some c1 → P proc .temp c c1 →
      _compileEach cast args (c1.alive c.m_code_pages.length page) c1 = some c2 →
      Q args (c1.alive c.m_code_pages.length page) c1 c2 → c2.hasPage page →
      c2.alive c.m_code_pages.length page = page →
      (c2.m_temp_page = [] ∨ page ≠ .temp) →
      P (.List (proc :: args)) page c
        (pushNumber (args.length % 65536) none
          ((c2.splice page).emplace_back page (.op .CALL))))
    (hEachNil : ∀ page c, Q [] page c c)
    (hEachCons : ∀ x xs page c c1 c2,
      _compile cast x page c = some c1 → P x page c c1 →
      _compileEach cast xs (c1.alive c.m_code_pages.length page) c1 = some c2 →
      Q xs (c1.alive c.m_code_pages.length page) c1 c2 →
      Q (x :: xs) page c c2) :
    (∀ x page c c', _compile cast x page c = some c' → P x page c c') ∧
      (∀ xs page c c', _compileEach cast xs page c = some c' → Q xs page c c') := by
  apply _compile.mutual_induct cast
    (fun x p c => ∀ c', _compile cast x p c = some c' → P x p c c')
    (fun xs p c => ∀ c', _compileEach cast xs p c = some c' → Q xs p c c')
  · intro name page c i c1 hadd c' h
    simp only [_compile, hadd, Option.bind_eq_bind, Option.bind_eq_some, emplaceTo_eq_some,
      pushNumberTo_eq_some] at h
    obtain ⟨_, ⟨hp, rfl⟩, _, rfl⟩ := h
    have e : c1 = (addSymbol name c).2 := by rw [hadd]
    have := hSymbol name page c (hasPage_addSymbol (e ▸ hp))
    rw [hadd] at this
    exact this
  · intro s page c i c1 hadd c' h
    simp only [_compile, hadd, Option.bind_eq_bind, Option.bind_eq_some, emplaceTo_eq_some,
      pushNumberTo_eq_some] at h
    obtain ⟨_, ⟨hp, rfl⟩, _, rfl⟩ := h
    have e : c1 = (addValue (.String s) c).2 := by rw [hadd]
    have := hString s page c (hasPage_addValue (e ▸ hp))
    rw [hadd] at this
    exact this
  · intro n page c i c1 hadd c' h
    simp only [_compile, hadd, Option.bind_eq_bind, Option.bind_eq_some, emplaceTo_eq_some,
      pushNumberTo_eq_some] at h
    obtain ⟨_, ⟨hp, rfl⟩, _, rfl⟩ := h
    have e : c1 = (addValue (.Number n) c).2 := by rw [hadd]
    have := hNumber n page c (hasPage_addValue (e ▸ hp))
    rw [hadd] at this
    exact this
  · intro k page c c' h
    rw [_compile, emplaceTo_eq_some] at h
    obtain ⟨hp, rfl⟩ := h
    exact hKeyword k page c hp
  · intro page c c' h
    rw [_compile, emplaceTo_eq_some] at h
    obtain ⟨hp, rfl⟩ := h
    exact hNil page c hp
  · intro cond thn els tail page c size ih1 ih2 ih3 c' h
    simp only [_compile, Option.bind_eq_bind, Option.bind_eq_some, emplaceTo_eq_some,
      pushNumberTo_eq_some, spliceTo_eq_some] at h
    obtain ⟨c1, h1, _, ⟨hp1, rfl⟩, c2, h2, _, ⟨hp2, rfl⟩, _, ⟨hs, rfl⟩, h3⟩ := h
    obtain ⟨e1, hp1⟩ := alive_of_hasPage hp1
    obtain ⟨e2, hp2⟩ := alive_of_hasPage hp2
    rw [e1] at h2
    have e3 : ∀ d : Compiler, d.m_code_pages.length = c2.m_code_pages.length →
        d.alive c.m_code_pages.length page = page := fun d hd => by
      rw [alive_congr _ _ hd, e2]
    have e4 := e3 (pushNumber (c2.m_temp_page.length % 65536) (some page) c2)
      (pushNumber_pages_length _ _ _)
    have e5 := e3 ((pushNumber (c2.m_temp_page.length % 65536) (some page) c2).splice page)
      (by rw [splice_pages_length, pushNumber_pages_length])
    rw [e2] at h3 hs
    rw [e4] at h3 hs
    rw [e5] at h3
    have ih3 := ih3 _ c' (by rw [e5]; exact h3)
    rw [e5] at ih3
    refine hIf cond thn els tail page c c1 c2 c' h1 (ih1 c1 h1) hp1 h2 (ih2 _ c2 h2) hp2 ?_ h3 ih3
    rintro rfl
    rcases hs with hs | hs
    · simp [pushNumber, Compiler.emplace_back, Compiler.extend] at hs
    · exact hs.2 rfl
  · intro target value tail page c ih c' h
    simp only [_compile, Option.bind_eq_bind, Option.bind_eq_some, emplaceTo_eq_some,
      pushNumberTo_eq_some] at h
    obtain ⟨name, hname, c1, h1, _, ⟨hp1, rfl⟩, _, h2⟩ := h
    obtain ⟨e1, hp1⟩ := alive_of_hasPage hp1
    rw [alive_congr _ _ (emplace_pages_length _ _ _), e1] at h2
    subst h2
    exact hSet target value tail page c name c1 hname h1 (ih _ c1 h1) hp1
  · intro target value tail page c ih c' h
    simp only [_compile, Option.bind_eq_bind, Option.bind_eq_some, emplaceTo_eq_some,
      pushNumberTo_eq_some] at h
    obtain ⟨name, hname, c1, h1, _, ⟨hp1, rfl⟩, _, h2⟩ := h
    obtain ⟨e1, hp1⟩ := alive_of_hasPage hp1
    rw [alive_congr _ _ (emplace_pages_length _ _ _), e1] at h2
    subst h2
    exact hDef target value tail page c name c1 hname h1 (ih _ c1 h1) hp1
  · intro params body tail page c c0 page_id i c1 hadd ih c' h
    simp only [_compile, Option.bind_eq_bind, Option.bind_eq_some] at h
    obtain ⟨c2, h2, c3, h3, h4⟩ := h
    simp only [Option.some.injEq] at h4
    subst h4
    exact hFun params body tail page c c2 c3 h2 h3 (ih c2 c3 h3)
  · intro rest page c ih c' h
    simp only [_compile, Option.bind_eq_bind, Option.bind_eq_some, emplaceTo_eq_some] at h
    obtain ⟨c1, h1, hp1, h2⟩ := h
    obtain ⟨e1, hp1⟩ := alive_of_hasPage hp1
    rw [e1] at h2
    subst h2
    exact hBegin rest page c c1 h1 (ih c1 h1) hp1 e1
  · intro cond body tail page c ih1 ih2 c' h
    simp only [_compile, Option.bind_eq_bind, Option.bind_eq_some, emplaceTo_eq_some,
      pushNumberTo_eq_some, spliceTo_eq_some] at h
    obtain ⟨c1, h1, c2, h2, _, ⟨hp2, rfl⟩, _, ⟨_, rfl⟩, _, ⟨hs, rfl⟩, _, ⟨_, rfl⟩, _, h3⟩ := h
    obtain ⟨e2, hp2⟩ := alive_of_hasPage hp2
    simp only [alive_emplace_back, alive_pushNumber, alive_splice, e2] at hs h3
    subst h3
    refine hWhile cond body tail page c c1 c2 h1 (ih1 c1 h1) h2 (ih2 c1 c2 h2) hp2 ?_
    rintro rfl
    rcases hs with hs | hs
    · simp [pushNumber, Compiler.emplace_back, Compiler.extend] at hs
    · exact hs.2 rfl
  · intro k tail page c n1 n2 n3 n4 n5 n6 c' h
    rw [_compile] at h
    · cases h
    all_goals assumption
  · intro proc args page c n1 n2 n3 n4 n5 n6 n7 size ih1 ih2 c' h
    rw [_compile] at h
    rotate_left
    all_goals try assumption
    simp only [Option.bind_eq_bind, Option.bind_eq_some, emplaceTo_eq_some,
      spliceTo_eq_some] at h
    obtain ⟨c1, h1, c2, h2, _, ⟨hs, rfl⟩, _, ⟨hp2, rfl⟩, h3⟩ := h
    simp only [alive_splice] at hp2 h3 hs
    have hp2' : c2.hasPage (c2.alive c.m_code_pages.length page) :=
      hasPage_of_length (splice_pages_length _ _) hp2
    obtain ⟨e2, hp2⟩ := alive_of_hasPage hp2'
    simp only [e2, Option.some.injEq] at h3 hs
    subst h3
    refine hCall proc args page c c1 c2 (fun k hk => n7 k hk) h1 (ih1 c1 h1) h2
      (ih2 c1 c2 h2) hp2 e2 ?_
    rcases hs with hs | hs
    · exact Or.inl hs
    · exact Or.inr hs.2
  · intro page c c' h
    simp only [_compileEach, Option.some.injEq] at h
    subst h
    exact hEachNil page c
  · intro x xs page c ih1 ih2 c' h
    simp only [_compileEach, Option.bind_eq_bind, Option.bind_eq_some] at h
    obtain ⟨c1, h1, h2⟩ := h
    exact hEachCons x xs page c c1 c' h1 (ih1 c1 h1) h2 (ih2 c1 c' h2)

/-! ## Code pages only grow, and only where `_compile` was told to write -/

theorem appendAt_getD_self (ps : List (List Inst)) (i : Nat) (s : List Inst)
    (h : i < ps.length) : (appendAt ps i s).getD i [] = ps.getD i [] ++ s := by
  induction ps generalizing i with
  | nil => simp at h
  | cons p ps ih =>
    cases i with
    | zero => simp [appendAt]
    | succ k =>
      have hk : k < ps.length := by simpa using h
      simpa [appendAt] using ih k hk

theorem appendAt_getD_of_ne (ps : List (List Inst)) (i j : Nat) (s : List Inst)
    (h : j ≠ i) : (appendAt ps i s).getD j [] = ps.getD j [] := by
  induction ps generalizing i j with
  | nil => simp [appendAt]
  | cons p ps ih =>
    cases i with
    | zero =>
      cases j with
      | zero => exact absurd rfl h
      | succ m => simp [appendAt]
    | succ k =>
      cases j with
      | zero => simp [appendAt]
      | succ m =>
        have hm : m ≠ k := fun e => h (by rw [e])
        simpa [appendAt] using ih k m hm

theorem appendAt_getD_prefix (ps : List (List Inst)) (i j : Nat) (s : List Inst) :
    ps.getD j [] <+: (appendAt ps i s).getD j [] := by
  by_cases hj : j = i
  · subst hj
    by_cases hlt : j < ps.length
    · rw [appendAt_getD_self ps j s hlt]
      exact List.prefix_append _ _
    · have hge : ps.length ≤ j := Nat.le_of_not_lt hlt
      rw [List.getD_eq_default _ _ hge]
      exact List.nil_prefix
  · rw [appendAt_getD_of_ne ps i j s hj]

theorem PagesKept.of_eq (p : PageRef) (c c' : Compiler)
    (h : c'.m_code_pages = c.m_code_pages) : PagesKept p c c' := by
  refine ⟨by rw [h], fun j _ => ⟨by rw [h], fun _ => by rw [h]⟩⟩

theorem PagesKept.refl (p : PageRef) (c : Compiler) : PagesKept p c c :=
  PagesKept.of_eq p c c rfl

theorem PagesKept.trans {p : PageRef} {c c1 c2 : Compiler}
    (h1 : PagesKept p c c1) (h2 : PagesKept p c1 c2) : PagesKept p c c2 := by
  refine ⟨le_trans h1.1 h2.1, fun j hj => ?_⟩
  have hj1 : j < c1.m_code_pages.length := lt_of_lt_of_le hj h1.1
  refine ⟨(h1.2 j hj).1.trans (h2.2 j hj1).1, fun hne => ?_⟩
  rw [(h2.2 j hj1).2 hne, (h1.2 j hj).2 hne]

/-- A run that targets `m_temp_page` leaves every existing code page as it was, so it keeps
the relation for any target. -/
theorem PagesKept.of_temp {c c' : Compiler} (p : PageRef) (h : PagesKept .temp c c') :
    PagesKept p c c' := by
  refine ⟨h.1, fun j hj => ?_⟩
  have hsame := (h.2 j hj).2 (by simp)
  exact ⟨(h.2 j hj).1, fun _ => hsame⟩

/-- A run whose target reference is dangling leaves every existing code page as it was, so
it keeps the relation for any target. -/
theorem PagesKept.of_dangling {c c' : Compiler} (p : PageRef)
    (h : PagesKept .dangling c c') : PagesKept p c c' := by
  refine ⟨h.1, fun j hj => ?_⟩
  have hsame := (h.2 j hj).2 (by simp)
  exact ⟨(h.2 j hj).1, fun _ => hsame⟩

/-- The relation kept through what a reference has become is kept through the reference. -/
theorem PagesKept.of_alive {c c' : Compiler} (d : Compiler) (size : Nat) (p : PageRef)
    (h : PagesKept (d.alive size p) c c') : PagesKept p c c' := by
  rcases alive_cases d size p with e | e
  · rwa [e] at h
  · rw [e] at h
    exact PagesKept.of_dangling p h

theorem PagesKept.extend (p : PageRef) (c : Compiler) (s : List Inst) :
    PagesKept p c (c.extend p s) := by
  cases p with
  | temp => exact PagesKept.of_eq _ _ _ rfl
  | dangling => exact PagesKept.of_eq _ _ _ rfl
  | code i =>
    refine ⟨by simp [Compiler.extend, appendAt_length], fun j _ => ⟨?_, fun hne => ?_⟩⟩
    · exact appendAt_getD_prefix c.m_code_pages i j s
    · have hji : j ≠ i := fun e => hne (by rw [e])
      exact appendAt_getD_of_ne c.m_code_pages i j s hji

theorem PagesKept.emplace_back (p : PageRef) (c : Compiler) (b : Byte) :
    PagesKept p c (c.emplace_back p b) :=
  PagesKept.extend p c _

theorem PagesKept.pushNumber (p : PageRef) (c : Compiler) (n : Nat) :
    PagesKept p c (pushNumber n (some p) c) :=
  (PagesKept.emplace_back p c _).trans (PagesKept.emplace_back p _ _)

theorem PagesKept.pushNumber_none (p : PageRef) (c : Compiler) (n : Nat) :
    PagesKept p c (Ark.pushNumber n none c) :=
  PagesKept.of_eq _ _ _ rfl

theorem PagesKept.splice (p : PageRef) (c : Compiler) : PagesKept p c (c.splice p) := by
  have h := PagesKept.extend p c c.m_temp_page
  exact ⟨h.1, h.2⟩

theorem PagesKept.loadIndex (op : Instruction) (p : PageRef) (c : Compiler)
    (r : Nat × Compiler) (h : r.2.m_code_pages = c.m_code_pages) :
    PagesKept p c (loadIndex op p r) :=
  (PagesKept.of_eq p c r.2 h).trans
    ((PagesKept.emplace_back p r.2 _).trans (PagesKept.pushNumber p _ _))

theorem back_congr {c c' : Compiler}
    (h : c'.m_code_pages.length = c.m_code_pages.length) : c'.back = c.back := by
  simp only [Compiler.back, h]

theorem pushParams_pages (ps : List Node) (c c' : Compiler)
    (h : pushParams ps c = some c') :
    c'.m_code_pages.length = c.m_code_pages.length ∧ PagesKept c.back c c' := by
  induction ps generalizing c with
  | nil =>
    simp only [pushParams, Option.some.injEq] at h
    subst h
    exact ⟨rfl, PagesKept.refl _ _⟩
  | cons it its ih =>
    simp only [pushParams, Option.bind_eq_bind, Option.bind_eq_some] at h
    obtain ⟨name, _, h2⟩ := h
    have hlen1 : (addSymbol name (c.emplace_back c.back (.op .LET))).2.m_code_pages.length =
        c.m_code_pages.length := by
      rw [addSymbol_pages, Compiler.emplace_back, extend_pages_length]
    have hback : (addSymbol name (c.emplace_back c.back (.op .LET))).2.back = c.back :=
      back_congr hlen1
    obtain ⟨hl, hk⟩ := ih _ h2
    rw [pushNumber_pages_length, hlen1] at hl
    refine ⟨hl, ?_⟩
    have hk' : PagesKept c.back
        (pushNumber ((addSymbol name (c.emplace_back c.back (.op .LET))).1 % 65536)
          (some c.back) (addSymbol name (c.emplace_back c.back (.op .LET))).2) c' := by
      have hb2 : (pushNumber ((addSymbol name (c.emplace_back c.back (.op .LET))).1 % 65536)
          (some (addSymbol name (c.emplace_back c.back (.op .LET))).2.back)
          (addSymbol name (c.emplace_back c.back (.op .LET))).2).back = c.back :=
        back_congr (by rw [pushNumber_pages_length, hlen1])
      rw [hb2, hback] at hk
      exact hk
    exact (PagesKept.emplace_back c.back c _).trans
      ((PagesKept.of_eq _ _ _ (addSymbol_pages _ _)).trans
        ((PagesKept.pushNumber c.back _ _).trans hk'))

theorem funHeader_pages (c : Compiler) :
    (funHeader c).m_code_pages.length = c.m_code_pages.length + 1 ∧
      ∀ j, j < c.m_code_pages.length →
        (funHeader c).m_code_pages.getD j [] = c.m_code_pages.getD j [] := by
  have hp : (funHeader c).m_code_pages =
      appendAt (c.m_code_pages ++ [[]]) ((c.m_code_pages ++ [[]]).length - 1)
        [Inst.ofByte (.op .NEW_ENV)] := by
    simp only [funHeader, Compiler.emplace_back, Compiler.extend, Compiler.back,
      pushNumber, Compiler.push_byte, addValue_pages, Compiler.new_page]
  rw [hp]
  refine ⟨by simp [appendAt_length], fun j hj => ?_⟩
  have hne : j ≠ (c.m_code_pages ++ [[]]).length - 1 := by
    simp only [List.length_append, List.length_singleton, Nat.add_sub_cancel]
    exact Nat.ne_of_lt hj
  rw [appendAt_getD_of_ne _ _ _ _ hne, List.getD_append _ _ _ _ hj]

/-- A `fun` form leaves every page that existed before it as it was, whatever the target. -/
theorem PagesKept.funForm (c c1 c2 : Compiler) (ps : List Node)
    (h1 : pushParams ps (funHeader c) = some c1)
    (h2 : PagesKept c1.back c1 c2) :
    PagesKept .temp c (c2.emplace_back c2.back (.op .RET)) := by
  obtain ⟨hl0, hsame0⟩ := funHeader_pages c
  obtain ⟨hl1, hk1⟩ := pushParams_pages ps _ _ h1
  have hlen2 : c.m_code_pages.length + 1 ≤ c2.m_code_pages.length := by
    have := h2.1
    omega
  have hlen' : (c2.emplace_back c2.back (.op .RET)).m_code_pages.length =
      c2.m_code_pages.length := extend_pages_length _ _ _
  have hfix : ∀ j, j < c.m_code_pages.length →
      (c2.emplace_back c2.back (.op .RET)).m_code_pages.getD j [] =
        c.m_code_pages.getD j [] := by
    intro j hj
    have e3 : (c2.emplace_back c2.back (.op .RET)).m_code_pages.getD j [] =
        c2.m_code_pages.getD j [] := by
      have hne : j ≠ c2.m_code_pages.length - 1 := by omega
      exact appendAt_getD_of_ne _ _ _ _ hne
    have e2 : c2.m_code_pages.getD j [] = c1.m_code_pages.getD j [] := by
      refine (h2.2 j (by omega)).2 ?_
      intro e
      simp only [Compiler.back, PageRef.code.injEq] at e
      omega
    have e1 : c1.m_code_pages.getD j [] = (funHeader c).m_code_pages.getD j [] := by
      refine (hk1.2 j (by omega)).2 ?_
      intro e
      simp only [Compiler.back, PageRef.code.injEq] at e
      omega
    rw [e3, e2, e1, hsame0 j hj]
  refine ⟨by omega, fun j hj => ?_⟩
  rw [hfix j hj]
  exact ⟨List.prefix_refl _, fun _ => rfl⟩

/-- Every successful run of `_compile`, and of its loops, keeps the code pages: pages are
only added, slots are only appended, and an existing page other than the target is left
untouched. -/
theorem compile_pagesKept (cast : List Inst → Nat) :
    (∀ x page c c', _compile cast x page c = some c' → PagesKept page c c') ∧
      (∀ xs page c c', _compileEach cast xs page c = some c' → PagesKept page c c') := by
  apply compile_induction cast (fun _ p c c' => PagesKept p c c')
    (fun _ p c c' => PagesKept p c c')
  · intro name page c _
    exact PagesKept.loadIndex _ _ _ _ (addSymbol_pages _ _)
  · intro s page c _
    exact PagesKept.loadIndex _ _ _ _ (addValue_pages _ _)
  · intro n page c _
    exact PagesKept.loadIndex _ _ _ _ (addValue_pages _ _)
  · intro k page c _
    exact PagesKept.emplace_back _ _ _
  · intro page c _
    exact PagesKept.emplace_back _ _ _
  · intro cond thn els tail page c c1 c2 c3 _ k1 _ _ k2 _ _ _ k3
    exact k1.trans ((PagesKept.emplace_back page c1 _).trans
      ((PagesKept.of_temp page k2).trans
        ((PagesKept.pushNumber page c2 _).trans ((PagesKept.splice page _).trans k3))))
  · intro target value tail page c name c1 _ _ k1 _
    exact (PagesKept.of_eq page c _ (addSymbol_pages _ _)).trans
      (k1.trans (PagesKept.loadIndex _ page c1 _ rfl))
  · intro target value tail page c name c1 _ _ k1 _
    exact (PagesKept.of_eq page c _ (addSymbol_pages _ _)).trans
      (k1.trans (PagesKept.loadIndex _ page c1 _ rfl))
  · intro params body tail page c c1 c2 h1 _ k2
    exact PagesKept.of_temp page (PagesKept.funForm c c1 c2 _ h1 k2)
  · intro rest page c c1 _ k1 _ _
    exact k1.trans (PagesKept.emplace_back page c1 _)
  · intro cond body tail page c c1 c2 _ k1 _ k2 _ _
    refine k1.trans ((PagesKept.of_temp page k2).trans ?_)
    exact (PagesKept.emplace_back page c2 _).trans
      ((PagesKept.pushNumber page _ _).trans
        ((PagesKept.splice page _).trans
          ((PagesKept.emplace_back page _ _).trans (PagesKept.pushNumber page _ _))))
  · intro proc args page c c1 c2 _ _ k1 _ k2 _ _ _
    exact (PagesKept.of_temp page k1).trans ((PagesKept.of_alive _ _ _ k2).trans
      ((PagesKept.splice page c2).trans
        ((PagesKept.emplace_back page _ _).trans (PagesKept.pushNumber_none page _ _))))
  · intro page c
    exact PagesKept.refl _ _
  · intro x xs page c c1 c2 _ k1 _ k2
    exact k1.trans (PagesKept.of_alive _ _ _ k2)

/-! ## The two halves written by `pushNumber` -/

theorem hi_byte_eq (n : Nat) (h : n < 65536) : (n &&& 0xff00) >>> 8 = n / 256 := by
  apply Nat.eq_of_testBit_eq
  intro j
  rw [Nat.testBit_shiftRight, Nat.testBit_and]
  have hdiv : n / 256 = n >>> 8 := by rw [Nat.shiftRight_eq_div_pow]
  rw [hdiv, Nat.testBit_shiftRight]
  by_cases hj : j < 8
  · have hmask : Nat.testBit 0xff00 (8 + j) = true := by
      interval_cases j <;> decide
    rw [hmask, Bool.and_true]
  · have hlt : n < 2 ^ (8 + j) :=
      lt_of_lt_of_le h (by
        have : (65536 : Nat) = 2 ^ 16 := by norm_num
        rw [this]
        exact Nat.pow_le_pow_right (by norm_num) (by omega))
    rw [Nat.testBit_lt_two_pow hlt, Bool.false_and]

theorem lo_byte_eq (n : Nat) : n &&& 0x00ff = n % 256 :=
  Nat.and_pow_two_sub_one_eq_mod n 8

/-- The two numbers written by `pushNumber(n)` for `n < 65536` are `n / 256` and `n % 256`:
both are bytes and `hi * 256 + lo = n`. -/
theorem pushNumber_halves (n : Nat) (h : n < 65536) :
    ((n % 65536 % 65536) &&& 0xff00) >>> 8 = n / 256 ∧
      (n % 65536 % 65536) &&& 0x00ff = n % 256 ∧
      n / 256 < 256 ∧ n % 256 < 256 ∧ n / 256 * 256 + n % 256 = n := by
  have hm : n % 65536 % 65536 = n := by
    rw [Nat.mod_mod, Nat.mod_eq_of_lt h]
  rw [hm]
  refine ⟨hi_byte_eq n h, lo_byte_eq n, by omega, by omega, by omega⟩

/-! ## The `while` form -/

theorem page_extend (c : Compiler) (i : Nat) (s : List Inst)
    (h : i < c.m_code_pages.length) :
    (c.extend (.code i) s).page (.code i) = c.page (.code i) ++ s := by
  simp only [Compiler.page, Compiler.extend]
  exact appendAt_getD_self _ _ _ h

theorem page_extend_of_hasPage (c : Compiler) (p : PageRef) (s : List Inst)
    (h : c.hasPage p) : (c.extend p s).page p = c.page p ++ s ∧ (c.extend p s).hasPage p := by
  cases p with
  | temp => exact ⟨rfl, trivial⟩
  | dangling => exact absurd h (by simp [Compiler.hasPage])
  | code i =>
    refine ⟨page_extend c i s h, ?_⟩
    show i < (c.extend (.code i) s).m_code_pages.length
    rw [extend_pages_length]
    exact h

theorem temp_extend_code (c : Compiler) (i : Nat) (s : List Inst) :
    (c.extend (.code i) s).m_temp_page = c.m_temp_page := rfl

/-- What a successful run of a `while` form is made of: the run of the condition into the
page, the run of the body into `m_temp_page`, then the tail written through a reference that
is still valid and is not `m_temp_page`. -/
theorem compile_while_inv (cast : List Inst → Nat) (cond body : Node) (tail : List Node)
    (page : PageRef) (c c' : Compiler)
    (h : _compile cast (.List (.Keyword .While :: cond :: body :: tail)) page c = some c') :
    ∃ c1 c2, _compile cast cond page c = some c1 ∧ _compile cast body .temp c1 = some c2 ∧
      c2.hasPage page ∧ page ≠ .temp ∧ c2.alive c.m_code_pages.length page = page ∧
      c' = whileTail cast page (c.page page).length c2 := by
  simp only [_compile, Option.bind_eq_bind, Option.bind_eq_some, emplaceTo_eq_some,
    pushNumberTo_eq_some, spliceTo_eq_some] at h
  obtain ⟨c1, h1, c2, h2, _, ⟨hp2, rfl⟩, _, ⟨_, rfl⟩, _, ⟨hs, rfl⟩, _, ⟨_, rfl⟩, _, h3⟩ := h
  obtain ⟨e2, hp2⟩ := alive_of_hasPage hp2
  simp only [alive_emplace_back, alive_pushNumber, alive_splice, e2] at hs h3
  refine ⟨c1, c2, h1, h2, hp2, ?_, e2, h3.symm⟩
  rintro rfl
  rcases hs with hs | hs
  · simp [pushNumber, Compiler.emplace_back, Compiler.extend] at hs
  · exact hs.2 rfl

/-- The page `i` after the tail of a `while` form: what the page held once the condition and
the body were compiled, `POP_JUMP_IF_FALSE` and the two halves of the converted buffer, the
buffer itself, then `JUMP` and the two halves of `current`. -/
theorem whileTail_page (cast : List Inst → Nat) (i current : Nat) (c2 : Compiler)
    (h : i < c2.m_code_pages.length) :
    (whileTail cast (.code i) current c2).page (.code i) =
      c2.page (.code i) ++
        slots [.op .POP_JUMP_IF_FALSE,
          .num ((cast c2.m_temp_page % 65536 % 65536 &&& 0xff00) >>> 8),
          .num (cast c2.m_temp_page % 65536 % 65536 &&& 0x00ff)] ++
        c2.m_temp_page ++
        slots [.op .JUMP, .num ((current % 65536 % 65536 &&& 0xff00) >>> 8),
          .num (current % 65536 % 65536 &&& 0x00ff)] := by
  simp only [whileTail, pushNumber, Compiler.splice, Compiler.emplace_back]
  have e : ∀ (c : Compiler) (t : List Inst),
      ({ c with m_temp_page := t } : Compiler).extend (.code i) =
        fun s => { c.extend (.code i) s with m_temp_page := t } := fun _ _ => rfl
  simp only [temp_extend_code, Compiler.page, Compiler.extend, appendAt_getD_self, h,
    appendAt_length, slots, List.map, List.append_assoc, List.cons_append, List.nil_append]

/-- A `while` form compiled into the code page `i`, which holds fewer than 65536 slots on
entry, by a run that returns.  The page ends with `JUMP hi lo`, and `hi * 256 + lo` is the slot count of the page
before the condition was compiled; what the page held is kept in front and the code of the
condition comes right after it, so that count is the index in the page of the first slot
written for the condition. -/
theorem while_jump_operand (cast : List Inst → Nat) (cond body : Node) (tail : List Node)
    (i : Nat) (c c' : Compiler)
    (hpage : i < c.m_code_pages.length)
    (hsize : (c.page (.code i)).length < 65536)
    (h : _compile cast (.List (.Keyword .While :: cond :: body :: tail)) (.code i) c =
      some c') :
    ∃ condCode a b buffer hi lo,
      c'.page (.code i) =
        c.page (.code i) ++ condCode ++ slots [.op .POP_JUMP_IF_FALSE, .num a, .num b] ++
          buffer ++ slots [.op .JUMP, .num hi, .num lo] ∧
      (∃ c1, _compile cast cond (.code i) c = some c1 ∧
        c1.page (.code i) = c.page (.code i) ++ condCode) ∧
      hi < 256 ∧ lo < 256 ∧ hi * 256 + lo = (c.page (.code i)).length := by
  obtain ⟨c1, c2, h1, h2, _, _, _, h3⟩ := compile_while_inv cast cond body tail _ c c' h
  have h3 := h3.symm
  have k1 := (compile_pagesKept cast).1 _ _ _ _ h1
  have k2 := (compile_pagesKept cast).1 _ _ _ _ h2
  have hi1 : i < c1.m_code_pages.length := lt_of_lt_of_le hpage k1.1
  have hi2 : i < c2.m_code_pages.length := lt_of_lt_of_le hi1 k2.1
  obtain ⟨condCode, hcond⟩ := (k1.2 i hpage).1
  have hpage2 : c2.page (.code i) = c1.page (.code i) := (k2.2 i hi1).2 (by simp)
  have hc' : c' = whileTail cast (.code i) (c.page (.code i)).length c2 := h3.symm
  obtain ⟨e1, e2, b1, b2, b3⟩ := pushNumber_halves _ hsize
  refine ⟨condCode, (cast c2.m_temp_page % 65536 % 65536 &&& 0xff00) >>> 8,
    cast c2.m_temp_page % 65536 % 65536 &&& 0x00ff, c2.m_temp_page,
    (c.page (.code i)).length / 256, (c.page (.code i)).length % 256, ?_,
    ⟨c1, h1, hcond.symm⟩, b1, b2, b3⟩
  rw [hc', whileTail_page cast i _ c2 hi2, hpage2, e1, e2]
  simp only [Compiler.page]
  rw [← hcond]

/-- The lemma `while_jump_operand` at `(while c b)`: the form compiled into a page 0 that holds 3 slots ends the page
with `JUMP 0 3`. -/
theorem while_jump_operand_witness :
    (0 < whileBefore.m_code_pages.length ∧
      (whileBefore.page (.code 0)).length < 65536 ∧
      _compile List.length (.List [.Keyword .While, .Symbol "c", .Symbol "b"]) (.code 0)
        whileBefore = some whileAfter) ∧
    ∃ condCode a b buffer hi lo,
      whileAfter.page (.code 0) =
        whileBefore.page (.code 0) ++ condCode ++
          slots [.op .POP_JUMP_IF_FALSE, .num a, .num b] ++
          buffer ++ slots [.op .JUMP, .num hi, .num lo] ∧
      (∃ c1, _compile List.length (.Symbol "c") (.code 0) whileBefore = some c1 ∧
        c1.page (.code 0) = whileBefore.page (.code 0) ++ condCode) ∧
      hi < 256 ∧ lo < 256 ∧ hi * 256 + lo = (whileBefore.page (.code 0)).length :=
  ⟨⟨by decide, by decide, by decide⟩,
    while_jump_operand List.length (.Symbol "c") (.Symbol "b") [] 0 whileBefore whileAfter
      (by decide) (by decide) (by decide)⟩

/-- C8: the form `(while c (fun (x) x))` compiled into page 0.  Once the condition and the
body are compiled, the `fun` form of the body has added a page, so the reference `page` taken
when `m_code_pages` held one page is dangling; the tail of the form (`POP_JUMP_IF_FALSE`, its
operand, the buffer, `JUMP` and its operand) is written through that reference, and the run
has no defined result: no `JUMP` operand is written to page 0. -/
theorem compile_while_fun_undefined (cast : List Inst → Nat) :
    ((_compile cast (.Symbol "c") (.code 0) Compiler.fresh.new_page).bind
        (fun c1 => _compile cast
          (.List [.Keyword .Fun, .List [.Symbol "x"], .Symbol "x"]) .temp c1)).map
        (fun c2 => (c2.m_code_pages.length, c2.alive 1 (.code 0))) = some (2, .dangling) ∧
    _compile cast (.List [.Keyword .While, .Symbol "c",
        .List [.Keyword .Fun, .List [.Symbol "x"], .Symbol "x"]]) (.code 0)
        Compiler.fresh.new_page = none :=
  of_decide_eq_true (Eq.refl true)

/-- C7: a `fun` form, whatever its target, adds at least one page and leaves every page that
existed on entry as it was, the target page included: neither `LOAD_CONST` nor the index of
the `PageAddr` constant is appended to the page in which the form appears. -/
theorem fun_form_keeps_target (cast : List Inst → Nat) (params body : Node)
    (tail : List Node) (page : PageRef) (c c' : Compiler)
    (h : _compile cast (.List (.Keyword .Fun :: params :: body :: tail)) page c = some c') :
    c.m_code_pages.length < c'.m_code_pages.length ∧
      ∀ j, j < c.m_code_pages.length → c'.page (.code j) = c.page (.code j) := by
  simp only [_compile, Option.bind_eq_bind, Option.bind_eq_some] at h
  obtain ⟨c1, h1, c2, h2, h3⟩ := h
  simp only [Option.some.injEq] at h3
  subst h3
  have h1' : pushParams (list params) (funHeader c) = some c1 := h1
  have k2 := (compile_pagesKept cast).1 _ _ _ _ h2
  have hk := PagesKept.funForm c c1 c2 _ h1' k2
  have hl0 := (funHeader_pages c).1
  have hl1 := (pushParams_pages _ _ _ h1').1
  have hl2 := k2.1
  have hl3 : (c2.emplace_back c2.back (.op .RET)).m_code_pages.length =
      c2.m_code_pages.length := extend_pages_length _ _ _
  refine ⟨by omega, fun j hj => ?_⟩
  exact (hk.2 j hj).2 (by simp)

/-- Witness for C7: `(fun (x) x)` compiled into page 0. -/
theorem fun_form_keeps_target_witness :
    _compile List.length (.List [.Keyword .Fun, .List [.Symbol "x"], .Symbol "x"]) (.code 0)
        funBefore = some funAfter ∧
      funBefore.m_code_pages.length < funAfter.m_code_pages.length ∧
      ∀ j, j < funBefore.m_code_pages.length →
        funAfter.page (.code j) = funBefore.page (.code j) :=
  ⟨by decide,
    fun_form_keeps_target List.length (.List [.Symbol "x"]) (.Symbol "x") [] (.code 0)
      funBefore funAfter (by decide)⟩

/-- C9: the form `(while c b)` compiled into page 0.  The operand after `POP_JUMP_IF_FALSE`
is made of the two halves of `static_cast<uint16_t>(m_temp_page)`, the conversion of the
buffer itself; the slot count 3 of the buffer is not what is pushed. -/
theorem compile_while_skip_operand (cast : List Inst → Nat) :
    (_compile cast (.List [.Keyword .While, .Symbol "c", .Symbol "b"])
        (.code 0) Compiler.fresh.new_page).map (fun c => c.m_code_pages) =
      some [slots [.op .LOAD_SYMBOL, .num 0, .num 0, .op .POP_JUMP_IF_FALSE,
        .num ((cast (slots [.op .LOAD_SYMBOL, .num 0, .num 1]) % 65536 % 65536 &&& 0xff00)
          >>> 8),
        .num (cast (slots [.op .LOAD_SYMBOL, .num 0, .num 1]) % 65536 % 65536 &&& 0x00ff),
        .op .LOAD_SYMBOL, .num 0, .num 1, .op .JUMP, .num 0, .num 0]] := by
  simp [_compile, addSymbol, find, pushNumber, pushNumberTo, Compiler.emplaceTo,
    Compiler.write, Compiler.alive, Compiler.spliceTo, Compiler.emplace_back,
    Compiler.extend, Compiler.new_page, Compiler.fresh, Compiler.splice, Compiler.page,
    appendAt, slots, Inst.ofByte]

/-! ## The tables and the output only grow -/

theorem TablesKept.refl_tb (c : Compiler) : TablesKept c c :=
  ⟨List.prefix_refl _, List.prefix_refl _, List.prefix_refl _, id, id⟩

theorem TablesKept.trans_tb {c c1 c2 : Compiler} (h1 : TablesKept c c1)
    (h2 : TablesKept c1 c2) :
    TablesKept c c2 :=
  ⟨h1.1.trans h2.1, h1.2.1.trans h2.2.1, h1.2.2.1.trans h2.2.2.1,
    fun h => h2.2.2.2.1 (h1.2.2.2.1 h), fun h => h2.2.2.2.2 (h1.2.2.2.2 h)⟩

theorem TablesKept.of_eq_tb (c c' : Compiler) (hs : c'.m_symbols = c.m_symbols)
    (hv : c'.m_values = c.m_values) (hb : c.m_bytecode <+: c'.m_bytecode) :
    TablesKept c c' := by
  refine ⟨by rw [hs], by rw [hv], hb, fun h => ?_, fun h => ?_⟩
  · rw [hs]
    exact h
  · rw [hv]
    exact h

theorem TablesKept.extend_tb (c : Compiler) (p : PageRef) (s : List Inst) :
    TablesKept c (c.extend p s) := by
  cases p <;> exact TablesKept.of_eq_tb _ _ rfl rfl (List.prefix_refl _)

theorem TablesKept.emplace_back_tb (c : Compiler) (p : PageRef) (b : Byte) :
    TablesKept c (c.emplace_back p b) :=
  TablesKept.extend_tb c p _

theorem TablesKept.push_byte_tb (c : Compiler) (b : Byte) : TablesKept c (c.push_byte b) :=
  TablesKept.of_eq_tb _ _ rfl rfl (List.prefix_append _ _)

theorem TablesKept.pushNumber_tb (c : Compiler) (n : Nat) (p : Option PageRef) :
    TablesKept c (pushNumber n p c) := by
  cases p with
  | none => exact (TablesKept.push_byte_tb c _).trans_tb (TablesKept.push_byte_tb _ _)
  | some q => exact (TablesKept.emplace_back_tb c q _).trans_tb (TablesKept.emplace_back_tb _ q _)

theorem TablesKept.splice_tb (c : Compiler) (p : PageRef) : TablesKept c (c.splice p) := by
  cases p <;> exact TablesKept.of_eq_tb _ _ rfl rfl (List.prefix_refl _)

theorem TablesKept.new_page_tb (c : Compiler) : TablesKept c c.new_page :=
  TablesKept.of_eq_tb _ _ rfl rfl (List.prefix_refl _)

theorem nodup_append_singleton {α : Type} (xs : List α) (a : α) (h : xs.Nodup)
    (ha : a ∉ xs) : (xs ++ [a]).Nodup := by
  rw [List.nodup_append]
  refine ⟨h, List.nodup_singleton a, ?_⟩
  intro x hx hx'
  rw [List.mem_singleton] at hx'
  subst hx'
  exact ha hx

theorem TablesKept.addSymbol_tb (name : String) (c : Compiler) :
    TablesKept c (addSymbol name c).2 := by
  unfold Ark.addSymbol
  dsimp only
  split
  · rename_i h
    have hmem := (find_eq_length_iff c.m_symbols name).1 h
    exact ⟨List.prefix_append _ _, List.prefix_refl _, List.prefix_refl _,
      fun hn => nodup_append_singleton _ _ hn hmem, id⟩
  · exact TablesKept.refl_tb c

theorem TablesKept.addValue_tb (v : Value) (c : Compiler) :
    TablesKept c (addValue v c).2 := by
  unfold Ark.addValue
  dsimp only
  split
  · rename_i h
    have hmem := (find_eq_length_iff c.m_values v).1 h
    exact ⟨List.prefix_refl _, List.prefix_append _ _, List.prefix_refl _, id,
      fun hn => nodup_append_singleton _ _ hn hmem⟩
  · exact TablesKept.refl_tb c

theorem TablesKept.loadIndex_tb (op : Instruction) (p : PageRef) (c : Compiler)
    (r : Nat × Compiler) (h : TablesKept c r.2) : TablesKept c (loadIndex op p r) :=
  h.trans_tb ((TablesKept.emplace_back_tb r.2 p _).trans_tb (TablesKept.pushNumber_tb _ _ _))

theorem pushParams_tablesKept (ps : List Node) (c c' : Compiler)
    (h : pushParams ps c = some c') : TablesKept c c' := by
  induction ps generalizing c with
  | nil =>
    simp only [pushParams, Option.some.injEq] at h
    subst h
    exact TablesKept.refl_tb _
  | cons it its ih =>
    simp only [pushParams, Option.bind_eq_bind, Option.bind_eq_some] at h
    obtain ⟨name, _, h2⟩ := h
    exact (TablesKept.emplace_back_tb c _ _).trans_tb
      ((TablesKept.addSymbol_tb name _).trans_tb
        ((TablesKept.pushNumber_tb _ _ _).trans_tb (ih _ h2)))

theorem funHeader_tablesKept (c : Compiler) : TablesKept c (funHeader c) :=
  (TablesKept.new_page_tb c).trans_tb
    ((TablesKept.addValue_tb _ _).trans_tb
      ((TablesKept.pushNumber_tb _ _ none).trans_tb (TablesKept.emplace_back_tb _ _ _)))

/-- Every successful run of `_compile`, and of its loops, only appends to the symbol table,
to the constant pool and to the output, and keeps both tables free of repeated entries. -/
theorem compile_tablesKept (cast : List Inst → Nat) :
    (∀ x page c c', _compile cast x page c = some c' → TablesKept c c') ∧
      (∀ xs page c c', _compileEach cast xs page c = some c' → TablesKept c c') := by
  apply compile_induction cast (fun _ _ c c' => TablesKept c c')
    (fun _ _ c c' => TablesKept c c')
  · intro name page c _
    exact TablesKept.loadIndex_tb _ _ _ _ (TablesKept.addSymbol_tb _ _)
  · intro s page c _
    exact TablesKept.loadIndex_tb _ _ _ _ (TablesKept.addValue_tb _ _)
  · intro n page c _
    exact TablesKept.loadIndex_tb _ _ _ _ (TablesKept.addValue_tb _ _)
  · intro k page c _
    exact TablesKept.emplace_back_tb _ _ _
  · intro page c _
    exact TablesKept.emplace_back_tb _ _ _
  · intro cond thn els tail page c c1 c2 c3 _ k1 _ _ k2 _ _ _ k3
    exact k1.trans_tb ((TablesKept.emplace_back_tb c1 page _).trans_tb
      (k2.trans_tb ((TablesKept.pushNumber_tb c2 _ _).trans_tb
        ((TablesKept.splice_tb _ page).trans_tb k3))))
  · intro target value tail page c name c1 _ _ k1 _
    exact (TablesKept.addSymbol_tb name c).trans_tb
      (k1.trans_tb (TablesKept.loadIndex_tb _ page c1 _ (TablesKept.refl_tb _)))
  · intro target value tail page c name c1 _ _ k1 _
    exact (TablesKept.addSymbol_tb name c).trans_tb
      (k1.trans_tb (TablesKept.loadIndex_tb _ page c1 _ (TablesKept.refl_tb _)))
  · intro params body tail page c c1 c2 h1 _ k2
    exact (funHeader_tablesKept c).trans_tb
      ((pushParams_tablesKept _ _ _ h1).trans_tb (k2.trans_tb (TablesKept.emplace_back_tb _ _ _)))
  · intro rest page c c1 _ k1 _ _
    exact k1.trans_tb (TablesKept.emplace_back_tb c1 page _)
  · intro cond body tail page c c1 c2 _ k1 _ k2 _ _
    refine k1.trans_tb (k2.trans_tb ?_)
    exact (TablesKept.emplace_back_tb c2 page _).trans_tb
      ((TablesKept.pushNumber_tb _ _ _).trans_tb
        ((TablesKept.splice_tb _ page).trans_tb
          ((TablesKept.emplace_back_tb _ page _).trans_tb (TablesKept.pushNumber_tb _ _ _))))
  · intro proc args page c c1 c2 _ _ k1 _ k2 _ _ _
    exact k1.trans_tb (k2.trans_tb
      ((TablesKept.splice_tb c2 page).trans_tb
        ((TablesKept.emplace_back_tb _ page _).trans_tb (TablesKept.pushNumber_tb _ _ none))))
  · intro page c
    exact TablesKept.refl_tb _
  · intro x xs page c c1 c2 _ k1 _ k2
    exact k1.trans_tb k2

/-! ## Interning of constants -/

theorem Value.eq_iff (a b : Value) : Value.eq a b = decide (a = b) := by
  cases a <;> cases b <;> simp [Value.eq]

/-- C11: both `addValue` overloads build a `Value` and intern it like `addSymbol` interns a
name, under the structural equality of `Value`.  A value already in the pool gives the index
of its first occurrence and leaves the compiler as it was; otherwise the value is appended and
the old pool length is returned.  The returned index always designates an entry equal to the
value, and a `Number`, a `String` and a `PageAddr` are never equal to one another. -/
theorem addValue_intern (v : Value) (c : Compiler) :
    (if v ∈ c.m_values then
        (addValue v c).2 = c ∧
        c.m_values[(addValue v c).1]? = some v ∧
        ∀ j, j < (addValue v c).1 → c.m_values[j]? ≠ some v
      else
        (addValue v c).2 = { c with m_values := c.m_values ++ [v] } ∧
        (addValue v c).1 = c.m_values.length) ∧
    (addValue v c).1 < (addValue v c).2.m_values.length ∧
    (addValue v c).2.m_values[(addValue v c).1]? = some v ∧
    (∀ a b, Value.eq a b = decide (a = b)) ∧
    (∀ n s k, Value.eq (.Number n) (.String s) = false ∧
      Value.eq (.Number n) (.PageAddr k) = false ∧
      Value.eq (.String s) (.PageAddr k) = false) ∧
    (∀ n, addValueNode (.Number n) c = some (addValue (.Number n) c)) ∧
    (∀ s, addValueNode (.String s) c = some (addValue (.String s) c)) ∧
    (∀ k, addValuePage k c = addValue (.PageAddr k) c) := by
  refine ⟨?_, ?_, ?_, Value.eq_iff, fun n s k => ⟨rfl, rfl, rfl⟩, fun _ => rfl, fun _ => rfl,
    fun _ => rfl⟩
  · by_cases hmem : v ∈ c.m_values
    · have hne : find c.m_values v ≠ c.m_values.length := fun h =>
        (find_eq_length_iff c.m_values v).1 h hmem
      have hres : addValue v c = (find c.m_values v, c) := by
        simp [addValue, hne]
      rw [if_pos hmem, hres]
      exact ⟨rfl, find_getElem c.m_values v hmem, fun j hj => find_first c.m_values v j hj⟩
    · have heq : find c.m_values v = c.m_values.length :=
        (find_eq_length_iff c.m_values v).2 hmem
      have hres : addValue v c =
          (c.m_values.length, { c with m_values := c.m_values ++ [v] }) := by
        simp [addValue, heq]
      rw [if_neg hmem, hres]
      exact ⟨rfl, rfl⟩
  · by_cases hmem : v ∈ c.m_values
    · have hne : find c.m_values v ≠ c.m_values.length := fun h =>
        (find_eq_length_iff c.m_values v).1 h hmem
      have hres : addValue v c = (find c.m_values v, c) := by
        simp [addValue, hne]
      rw [hres]
      exact lt_of_le_of_ne (find_le c.m_values v) hne
    · have heq : find c.m_values v = c.m_values.length :=
        (find_eq_length_iff c.m_values v).2 hmem
      have hres : addValue v c =
          (c.m_values.length, { c with m_values := c.m_values ++ [v] }) := by
        simp [addValue, heq]
      rw [hres]
      simp
  · by_cases hmem : v ∈ c.m_values
    · have hne : find c.m_values v ≠ c.m_values.length := fun h =>
        (find_eq_length_iff c.m_values v).1 h hmem
      have hres : addValue v c = (find c.m_values v, c) := by
        simp [addValue, hne]
      rw [hres]
      exact find_getElem c.m_values v hmem
    · have heq : find c.m_values v = c.m_values.length :=
        (find_eq_length_iff c.m_values v).2 hmem
      have hres : addValue v c =
          (c.m_values.length, { c with m_values := c.m_values ++ [v] }) := by
        simp [addValue, heq]
      rw [hres]
      simp

/-! ## `compile` in two halves -/

theorem compile_eq (cast : List Inst → Nat) (toString16 : HugeNumber → String)
    (ast : Node) (c : Compiler) :
    compile cast toString16 ast c =
      (_compile cast ast (.code 0) (prologue c)).map (finish toString16) := by
  unfold compile
  show (_compile cast ast (.code 0) (prologue c)).bind _ = _
  cases _compile cast ast (.code 0) (prologue c) with
  | none => rfl
  | some c1 =>
    simp only [Option.some_bind, Option.map_some', finish, tablesOut]
    split
    · rfl
    · split <;> rfl

/-! ## The serializer only appends to the output -/

theorem OutputOnly.refl_out (c : Compiler) : OutputOnly c c :=
  ⟨rfl, rfl, rfl, rfl, List.prefix_refl _⟩

theorem OutputOnly.trans_out {c c1 c2 : Compiler} (h1 : OutputOnly c c1)
    (h2 : OutputOnly c1 c2) :
    OutputOnly c c2 :=
  ⟨h2.1.trans h1.1, h2.2.1.trans h1.2.1, h2.2.2.1.trans h1.2.2.1,
    h2.2.2.2.1.trans h1.2.2.2.1, h1.2.2.2.2.trans h2.2.2.2.2⟩

theorem outputOnly_push_byte (c : Compiler) (b : Byte) : OutputOnly c (c.push_byte b) :=
  ⟨rfl, rfl, rfl, rfl, List.prefix_append _ _⟩

theorem outputOnly_pushNumber (c : Compiler) (n : Nat) : OutputOnly c (pushNumber n none c) :=
  (outputOnly_push_byte c _).trans_out (outputOnly_push_byte _ _)

theorem outputOnly_foldl_push (chars : List Char) (c : Compiler) :
    OutputOnly c (chars.foldl (fun c ch => c.push_byte (.num ch.toNat)) c) := by
  induction chars generalizing c with
  | nil => exact OutputOnly.refl_out c
  | cons ch rest ih => exact (outputOnly_push_byte c _).trans_out (ih _)

theorem outputOnly_pushString (t : String) (c : Compiler) : OutputOnly c (pushString t c) :=
  outputOnly_foldl_push t.toList c

theorem outputOnly_pushSymbols (syms : List String) (c : Compiler) :
    OutputOnly c (pushSymbols syms c) := by
  induction syms generalizing c with
  | nil => exact OutputOnly.refl_out c
  | cons sym rest ih =>
    exact ((outputOnly_pushString sym c).trans_out (outputOnly_push_byte _ _)).trans_out (ih _)

theorem outputOnly_pushValues (toString16 : HugeNumber → String) (vals : List Value)
    (c : Compiler) : OutputOnly c (pushValues toString16 vals c) := by
  induction vals generalizing c with
  | nil => exact OutputOnly.refl_out c
  | cons val rest ih =>
    cases val with
    | Number n =>
      exact (((outputOnly_push_byte c _).trans_out (outputOnly_pushString _ _)).trans_out
        (outputOnly_push_byte _ _)).trans_out (ih _)
    | String t =>
      exact (((outputOnly_push_byte c _).trans_out (outputOnly_pushString _ _)).trans_out
        (outputOnly_push_byte _ _)).trans_out (ih _)
    | PageAddr k => exact (outputOnly_push_byte c _).trans_out (ih _)

theorem outputOnly_pushInsts (page : List Inst) (c : Compiler) :
    OutputOnly c (pushInsts page c) := by
  induction page generalizing c with
  | nil => exact OutputOnly.refl_out c
  | cons inst rest ih =>
    unfold pushInsts
    split
    · exact (outputOnly_push_byte c _).trans_out (ih _)
    · exact (outputOnly_pushNumber c _).trans_out (ih _)

theorem outputOnly_pushPages (pages : List (List Inst)) (c : Compiler) :
    OutputOnly c (pushPages pages c).1 := by
  induction pages generalizing c with
  | nil => exact OutputOnly.refl_out c
  | cons page rest ih =>
    unfold pushPages
    dsimp only
    split
    · exact (outputOnly_push_byte c _).trans_out (outputOnly_pushNumber _ _)
    · exact (((outputOnly_push_byte c _).trans_out (outputOnly_pushNumber _ _)).trans_out
        ((outputOnly_pushInsts page _).trans_out (outputOnly_push_byte _ _))).trans_out (ih _)

theorem outputOnly_tablesOut (toString16 : HugeNumber → String) (c : Compiler) :
    OutputOnly c (tablesOut toString16 c) := by
  unfold tablesOut
  dsimp only
  refine OutputOnly.trans_out ?_ (outputOnly_pushValues _ _ _)
  refine OutputOnly.trans_out ?_ (outputOnly_pushNumber _ _)
  refine OutputOnly.trans_out ?_ (outputOnly_push_byte _ _)
  refine OutputOnly.trans_out ?_ (outputOnly_pushSymbols _ _)
  exact outputOnly_pushNumber _ _

theorem outputOnly_finish (toString16 : HugeNumber → String) (c : Compiler) :
    OutputOnly c (finish toString16 c) := by
  unfold finish
  dsimp only
  have h := (outputOnly_tablesOut toString16 c).trans_out
    (outputOnly_pushPages (tablesOut toString16 c).m_code_pages (tablesOut toString16 c))
  split
  · exact h
  · split
    · exact h.trans_out ((outputOnly_push_byte _ _).trans_out (outputOnly_pushNumber _ _))
    · exact h

/-! ## Use sites and the final tables -/

theorem find_prefix_stable {α : Type} [DecidableEq α] (xs ys : List α) (a : α)
    (h : xs <+: ys) (ha : a ∈ xs) : find ys a = find xs a := by
  obtain ⟨zs, rfl⟩ := h
  induction xs with
  | nil => simp at ha
  | cons b bs ih =>
    by_cases hb : b = a
    · simp [find, hb]
    · have hab : ¬ a = b := fun e => hb e.symm
      have hmem : a ∈ bs := by simpa [hab] using ha
      simp [find, hb, ih hmem]

theorem find_append_singleton {α : Type} [DecidableEq α] (xs : List α) (a : α)
    (ha : a ∉ xs) : find (xs ++ [a]) a = xs.length := by
  induction xs with
  | nil => simp [find]
  | cons b bs ih =>
    have hb : ¬ b = a := fun e => ha (by simp [e])
    have hmem : a ∉ bs := fun e => ha (by simp [e])
    simp [find, hb, ih hmem]

theorem mem_of_find_ne_length {α : Type} [DecidableEq α] (xs : List α) (a : α)
    (h : find xs a ≠ xs.length) : a ∈ xs := by
  by_contra hmem
  exact h ((find_eq_length_iff xs a).2 hmem)

/-- Once `sym` is interned, its index is its position in every later table. -/
theorem addSymbol_index (sym : String) (c : Compiler) (T : List String)
    (h : (addSymbol sym c).2.m_symbols <+: T) :
    sym ∈ T ∧ find T sym = (addSymbol sym c).1 := by
  unfold addSymbol at h ⊢
  dsimp only at h ⊢
  split at h
  · rename_i hlen
    have hnot := (find_eq_length_iff c.m_symbols sym).1 hlen
    have hin : sym ∈ c.m_symbols ++ [sym] := by simp
    rw [if_pos hlen]
    refine ⟨h.subset hin, ?_⟩
    rw [find_prefix_stable _ _ _ h hin, find_append_singleton _ _ hnot]
    simp
  · rename_i hlen
    have hin := mem_of_find_ne_length _ _ hlen
    rw [if_neg hlen]
    exact ⟨h.subset hin, find_prefix_stable _ _ _ h hin⟩

/-- Once `v` is interned, its index is its position in every later pool. -/
theorem addValue_index (v : Value) (c : Compiler) (V : List Value)
    (h : (addValue v c).2.m_values <+: V) :
    v ∈ V ∧ find V v = (addValue v c).1 := by
  unfold addValue at h ⊢
  dsimp only at h ⊢
  split at h
  · rename_i hlen
    have hnot := (find_eq_length_iff c.m_values v).1 hlen
    have hin : v ∈ c.m_values ++ [v] := by simp
    rw [if_pos hlen]
    refine ⟨h.subset hin, ?_⟩
    rw [find_prefix_stable _ _ _ h hin, find_append_singleton _ _ hnot]
    simp
  · rename_i hlen
    have hin := mem_of_find_ne_length _ _ hlen
    rw [if_neg hlen]
    exact ⟨h.subset hin, find_prefix_stable _ _ _ h hin⟩

theorem addSymbol_of_mem (sym : String) (c : Compiler) (h : sym ∈ c.m_symbols) :
    addSymbol sym c = (find c.m_symbols sym, c) := by
  have hne : find c.m_symbols sym ≠ c.m_symbols.length := fun e =>
    (find_eq_length_iff c.m_symbols sym).1 e h
  simp [addSymbol, hne]

theorem addValue_of_mem (v : Value) (c : Compiler) (h : v ∈ c.m_values) :
    addValue v c = (find c.m_values v, c) := by
  have hne : find c.m_values v ≠ c.m_values.length := fun e =>
    (find_eq_length_iff c.m_values v).1 e h
  simp [addValue, hne]

theorem loadIndex_symbols (op : Instruction) (p : PageRef) (r : Nat × Compiler) :
    (loadIndex op p r).m_symbols = r.2.m_symbols ∧
      (loadIndex op p r).m_values = r.2.m_values := by
  cases p <;> exact ⟨rfl, rfl⟩

theorem compile_split (cast : List Inst → Nat) (toString16 : HugeNumber → String)
    (ast : Node) (c cf : Compiler) (h : compile cast toString16 ast c = some cf) :
    ∃ c1, _compile cast ast (.code 0) (prologue c) = some c1 ∧ finish toString16 c1 = cf := by
  rw [compile_eq] at h
  cases hc : _compile cast ast (.code 0) (prologue c) with
  | none => rw [hc] at h; cases h
  | some c1 =>
    rw [hc] at h
    exact ⟨c1, rfl, by simpa using h⟩

theorem lastTwo_append_two (p : List Inst) (a b : Inst) : lastTwo (p ++ [a, b]) = [a, b] := by
  simp [lastTwo]

theorem operandSlots_mod (n : Nat) : operandSlots (n % 65536) = operandSlots n := by
  simp [operandSlots]

/-- The two slots at the end of a page that `pushNumber(n, &page)` has just written to are
the two halves of `n`. -/
theorem pushNumber_lastTwo (n : Nat) (p : PageRef) (c : Compiler) (h : c.hasPage p) :
    lastTwo ((pushNumber n (some p) c).page p) = operandSlots n := by
  obtain ⟨e1, h1⟩ := page_extend_of_hasPage c p [Inst.ofByte (.num ((n % 65536 &&& 0xff00) >>> 8))] h
  obtain ⟨e2, _⟩ := page_extend_of_hasPage _ p [Inst.ofByte (.num (n % 65536 &&& 0x00ff))] h1
  show lastTwo (((c.extend p _).extend p _).page p) = _
  rw [e2, e1, List.append_assoc]
  exact lastTwo_append_two _ _ _

theorem loadIndex_lastTwo (op : Instruction) (p : PageRef) (r : Nat × Compiler)
    (h : r.2.hasPage p) : lastTwo ((loadIndex op p r).page p) = operandSlots r.1 := by
  have e := pushNumber_lastTwo (r.1 % 65536) p (r.2.emplace_back p (.op op))
    ((hasPage_extend _ _ _ _).2 h)
  rw [loadIndex, e, operandSlots_mod]

theorem SitesOk.nil_ok (T : List String) (V : List Value) : SitesOk T V [] := by
  intro e he
  cases he

theorem SitesOk.append_ok {T : List String} {V : List Value}
    {l1 l2 : List (UseKey × List Inst)} (h1 : SitesOk T V l1) (h2 : SitesOk T V l2) :
    SitesOk T V (l1 ++ l2) := by
  intro e he
  rcases List.mem_append.1 he with h | h
  · exact h1 e h
  · exact h2 e h

theorem SitesOk.cons_ok {T : List String} {V : List Value} {e : UseKey × List Inst}
    {l : List (UseKey × List Inst)} (h1 : e.1.isIn T V) (h2 : e.2 = operandSlots (e.1.index T V))
    (h : SitesOk T V l) : SitesOk T V (e :: l) := by
  intro x hx
  rcases List.mem_cons.1 hx with rfl | hx
  · exact ⟨h1, h2⟩
  · exact h x hx

theorem TablesKept.prefixes {c c' : Compiler} {T : List String} {V : List Value}
    (k : TablesKept c c') (hT : c'.m_symbols <+: T) (hV : c'.m_values <+: V) :
    c.m_symbols <+: T ∧ c.m_values <+: V :=
  ⟨k.1.trans hT, k.2.1.trans hV⟩

/-- The run of the parameter loop on one formal. -/
theorem pushParams_one (it : Node) (c : Compiler) (name : String)
    (h : getStringVal it = some name) :
    pushParams [it] c =
      some (pushNumber ((addSymbol name (c.emplace_back c.back (.op .LET))).1 % 65536)
        (some (addSymbol name (c.emplace_back c.back (.op .LET))).2.back)
        (addSymbol name (c.emplace_back c.back (.op .LET))).2) := by
  simp [pushParams, h]

theorem pushParams_cons (it : Node) (its : List Node) (c : Compiler) :
    pushParams (it :: its) c = (pushParams [it] c).bind (pushParams its) := by
  cases h : getStringVal it with
  | none => simp [pushParams, h]
  | some name => simp [pushParams, h]

theorem hasPage_back (c : Compiler) (h : 0 < c.m_code_pages.length) : c.hasPage c.back := by
  show c.m_code_pages.length - 1 < c.m_code_pages.length
  omega

/-- Every parameter of a `fun` form is written with the two halves of the position of its
name in any table that extends the symbol table reached by the loop. -/
theorem paramSites_ok (T : List String) (V : List Value) :
    ∀ (ps : List Node) (c c' : Compiler), 0 < c.m_code_pages.length →
      pushParams ps c = some c' → c'.m_symbols <+: T → SitesOk T V (paramSites ps c) := by
  intro ps
  induction ps with
  | nil =>
    intro c c' _ _ _
    exact SitesOk.nil_ok T V
  | cons it its ih =>
    intro c c' hlen h hT
    rw [pushParams_cons] at h
    cases hname : getStringVal it with
    | none =>
      simp only [paramSites, hname]
      exact SitesOk.nil_ok T V
    | some name =>
      have h1 := pushParams_one it c name hname
      rw [h1] at h
      simp only [Option.some_bind] at h
      simp only [paramSites, hname, h1]
      have kt := pushParams_tablesKept _ _ _ h
      have hd : (addSymbol name (c.emplace_back c.back (.op .LET))).2.m_symbols <+: T :=
        ((TablesKept.pushNumber_tb _ _ _).trans_tb kt).1.trans hT
      obtain ⟨hin, hidx⟩ := addSymbol_index name _ T hd
      have hl : (addSymbol name (c.emplace_back c.back (.op .LET))).2.m_code_pages.length =
          c.m_code_pages.length := by
        rw [addSymbol_pages, emplace_pages_length]
      refine SitesOk.cons_ok hin ?_ (ih _ c' ?_ h hT)
      · show lastTwo _ = operandSlots (find T name)
        rw [back_congr (pushNumber_pages_length _ _ _),
          pushNumber_lastTwo _ _ _ (hasPage_back _ (by omega)), operandSlots_mod, hidx]
      · rw [pushNumber_pages_length]
        omega

/-- Every use site met by a successful run of `_compile`, and of its loops, names an entry
of any tables `T`, `V` that extend the tables the run ends with, and the two operand slots
written for it are the two halves of the position of that entry in `T` (in `V`). -/
theorem compile_useSites (cast : List Inst → Nat) :
    (∀ x page c c', _compile cast x page c = some c' → ∀ T V,
        c'.m_symbols <+: T → c'.m_values <+: V → SitesOk T V (useSites cast x page c)) ∧
      (∀ xs page c c', _compileEach cast xs page c = some c' → ∀ T V,
        c'.m_symbols <+: T → c'.m_values <+: V → SitesOk T V (useSitesEach cast xs page c)) := by
  have run := compile_tablesKept cast
  have hleaf : ∀ (op : Instruction) (page : PageRef) (r : Nat × Compiler) (k : UseKey)
      (T : List String) (V : List Value), r.2.hasPage page → k.isIn T V →
      k.index T V = r.1 →
      SitesOk T V [(k, lastTwo ((loadIndex op page r).page page))] := by
    intro op page r k T V hp hin hidx
    refine SitesOk.cons_ok hin ?_ (SitesOk.nil_ok T V)
    show lastTwo _ = operandSlots (k.index T V)
    rw [loadIndex_lastTwo op page r hp, hidx]
  have key := compile_induction cast
    (fun x p c c' => _compile cast x p c = some c' → ∀ T V,
      c'.m_symbols <+: T → c'.m_values <+: V → SitesOk T V (useSites cast x p c))
    (fun xs p c c' => _compileEach cast xs p c = some c' → ∀ T V,
      c'.m_symbols <+: T → c'.m_values <+: V → SitesOk T V (useSitesEach cast xs p c))
    ?_ ?_ ?_ ?_ ?_ ?_ ?_ ?_ ?_ ?_ ?_ ?_ ?_ ?_
  · exact ⟨fun x page c c' h => key.1 x page c c' h h,
      fun xs page c c' h => key.2 xs page c c' h h⟩
  · intro name page c hp hrun T V hT hV
    simp only [useSites, hrun]
    rw [(loadIndex_symbols _ _ _).1] at hT
    obtain ⟨hin, hidx⟩ := addSymbol_index name c T hT
    exact hleaf _ _ _ (.symbol name) T V
      (hasPage_of_length (by rw [addSymbol_pages]) hp) hin hidx
  · intro s page c hp hrun T V hT hV
    simp only [useSites, hrun]
    rw [(loadIndex_symbols _ _ _).2] at hV
    obtain ⟨hin, hidx⟩ := addValue_index (.String s) c V hV
    exact hleaf _ _ _ (.literal (.String s)) T V
      (hasPage_of_length (by rw [addValue_pages]) hp) hin hidx
  · intro n page c hp hrun T V hT hV
    simp only [useSites, hrun]
    rw [(loadIndex_symbols _ _ _).2] at hV
    obtain ⟨hin, hidx⟩ := addValue_index (.Number n) c V hV
    exact hleaf _ _ _ (.literal (.Number n)) T V
      (hasPage_of_length (by rw [addValue_pages]) hp) hin hidx
  · intro k page c _ _ T V _ _
    simp only [useSites]
    exact SitesOk.nil_ok T V
  · intro page c _ _ T V _ _
    simp only [useSites]
    exact SitesOk.nil_ok T V
  · intro cond thn els tail page c c1 c2 c3 h1 k1 _ h2 k2 _ _ h3 k3 _ T V hT hV
    simp only [useSites, h1, h2]
    have t3 := ((TablesKept.pushNumber_tb c2 _ _).trans_tb
      (TablesKept.splice_tb _ page)).trans_tb (run.1 _ _ _ _ h3)
    have t1 := (TablesKept.emplace_back_tb c1 page (.op .POP_JUMP_IF_TRUE)).trans_tb
      ((run.1 _ _ _ _ h2).trans_tb t3)
    obtain ⟨hT2, hV2⟩ := t3.prefixes hT hV
    obtain ⟨hT1, hV1⟩ := t1.prefixes hT hV
    exact (k1 h1 T V hT1 hV1).append_ok
      ((k2 h2 T V hT2 hV2).append_ok (k3 h3 T V hT hV))
  · intro target value tail page c name c1 hname h1 k1 hp1 hrun T V hT hV
    simp only [useSites, hname, hrun]
    rw [(loadIndex_symbols _ _ _).1] at hT
    rw [(loadIndex_symbols _ _ _).2] at hV
    obtain ⟨hT0, _⟩ := (run.1 _ _ _ _ h1).prefixes hT hV
    obtain ⟨hin, hidx⟩ := addSymbol_index name c T hT0
    exact (k1 h1 T V hT hV).append_ok
      (hleaf _ _ ((addSymbol name c).1, c1) (.symbol name) T V hp1 hin hidx)
  · intro target value tail page c name c1 hname h1 k1 hp1 hrun T V hT hV
    simp only [useSites, hname, hrun]
    rw [(loadIndex_symbols _ _ _).1] at hT
    rw [(loadIndex_symbols _ _ _).2] at hV
    obtain ⟨hT0, _⟩ := (run.1 _ _ _ _ h1).prefixes hT hV
    obtain ⟨hin, hidx⟩ := addSymbol_index name c T hT0
    exact (k1 h1 T V hT hV).append_ok
      (hleaf _ _ ((addSymbol name c).1, c1) (.symbol name) T V hp1 hin hidx)
  · intro params body tail page c c1 c2 h1 h2 k2 _ T V hT hV
    simp only [useSites, h1]
    obtain ⟨hT2, hV2⟩ := (TablesKept.emplace_back_tb c2 c2.back (.op .RET)).prefixes hT hV
    obtain ⟨hT1, _⟩ := (run.1 _ _ _ _ h2).prefixes hT2 hV2
    refine (paramSites_ok T V _ _ c1 ?_ h1 hT1).append_ok (k2 h2 T V hT2 hV2)
    rw [(funHeader_pages c).1]
    omega
  · intro rest page c c1 h1 k1 _ _ _ T V hT hV
    simp only [useSites]
    obtain ⟨hT1, hV1⟩ := (TablesKept.emplace_back_tb c1 page (.op .RET)).prefixes hT hV
    exact k1 h1 T V hT1 hV1
  · intro cond body tail page c c1 c2 h1 k1 h2 k2 _ _ _ T V hT hV
    simp only [useSites, h1]
    have t2 : TablesKept c2 (whileTail cast page (c.page page).length c2) :=
      (TablesKept.emplace_back_tb c2 page _).trans_tb
        ((TablesKept.pushNumber_tb _ _ _).trans_tb
          ((TablesKept.splice_tb _ page).trans_tb
            ((TablesKept.emplace_back_tb _ page _).trans_tb (TablesKept.pushNumber_tb _ _ _))))
    obtain ⟨hT2, hV2⟩ := t2.prefixes hT hV
    obtain ⟨hT1, hV1⟩ := (run.1 _ _ _ _ h2).prefixes hT2 hV2
    exact (k1 h1 T V hT1 hV1).append_ok (k2 h2 T V hT2 hV2)
  · intro proc args page c c1 c2 hproc h1 k1 h2 k2 _ _ _ _ T V hT hV
    have e : useSites cast (.List (proc :: args)) page c =
        useSites cast proc .temp c ++
          useSitesEach cast args (c1.alive c.m_code_pages.length page) c1 := by
      rw [useSites, h1]
      all_goals
        intros
        exact absurd (by assumption) (hproc _)
    rw [e]
    have t2 : TablesKept c2 (pushNumber (args.length % 65536) none
        ((c2.splice page).emplace_back page (.op .CALL))) :=
      (TablesKept.splice_tb c2 page).trans_tb
        ((TablesKept.emplace_back_tb _ page _).trans_tb (TablesKept.pushNumber_tb _ _ none))
    obtain ⟨hT2, hV2⟩ := t2.prefixes hT hV
    obtain ⟨hT1, hV1⟩ := (run.2 _ _ _ _ h2).prefixes hT2 hV2
    exact (k1 h1 T V hT1 hV1).append_ok (k2 h2 T V hT2 hV2)
  · intro page c _ T V _ _
    simp only [useSitesEach]
    exact SitesOk.nil_ok T V
  · intro x xs page c c1 c2 h1 k1 h2 k2 _ T V hT hV
    simp only [useSitesEach, h1]
    obtain ⟨hT1, hV1⟩ := (run.2 _ _ _ _ h2).prefixes hT hV
    exact (k1 h1 T V hT1 hV1).append_ok (k2 h2 T V hT hV)

/-- C12: an AST compiled by a fresh compiler.  The final symbol table and the final constant
pool hold no entry twice.  Every use site met by the compilation (a symbol leaf, the target
of `set` or of `def`, a parameter of `fun`, a string or number leaf) names an entry of the
final table (pool), and the two operand slots the code has written for it, read back from the
page, are the two halves of the position of that entry: they depend on the name (the value)
alone.  Hence any two use sites of the same name, or of the same literal value, carry the
same two operand slots. -/
theorem compile_dedup (cast : List Inst → Nat) (toString16 : HugeNumber → String)
    (ast : Node) (cf : Compiler)
    (h : compile cast toString16 ast Compiler.fresh = some cf) :
    cf.m_symbols.Nodup ∧ cf.m_values.Nodup ∧
    (∀ k o, (k, o) ∈ useSites cast ast (.code 0) (prologue Compiler.fresh) →
      k.isIn cf.m_symbols cf.m_values ∧
        o = operandSlots (k.index cf.m_symbols cf.m_values)) ∧
    (∀ k o₁ o₂, (k, o₁) ∈ useSites cast ast (.code 0) (prologue Compiler.fresh) →
      (k, o₂) ∈ useSites cast ast (.code 0) (prologue Compiler.fresh) → o₁ = o₂) := by
  obtain ⟨c1, h1, hf⟩ := compile_split cast toString16 ast _ cf h
  have ko := outputOnly_finish toString16 c1
  rw [hf] at ko
  have kt := (compile_tablesKept cast).1 _ _ _ _ h1
  have hs : cf.m_symbols = c1.m_symbols := ko.1
  have hv : cf.m_values = c1.m_values := ko.2.1
  have ks := (compile_useSites cast).1 _ _ _ _ h1 cf.m_symbols cf.m_values
    (by rw [hs]) (by rw [hv])
  refine ⟨?_, ?_, fun k o hk => ks (k, o) hk, fun k o₁ o₂ h₁ h₂ => ?_⟩
  · rw [hs]
    exact kt.2.2.2.1 List.nodup_nil
  · rw [hv]
    exact kt.2.2.2.2 List.nodup_nil
  · exact ((ks (k, o₁) h₁).2).trans ((ks (k, o₂) h₂).2).symm

/-- Witness for C12: `(fun (a x) (begin (def y "s") (set x "t") (x y "t")))` compiled by a
fresh compiler; the three use sites of `x` (parameter, `set` target, callee) carry `0 1`, the
two of `y` carry `0 2` and the two of `"t"` carry `0 2`. -/
theorem compile_dedup_witness :
    (compile List.length (fun _ => "") dedupProgram Compiler.fresh = some dedupAfter ∧
      useSites List.length dedupProgram (.code 0) (prologue Compiler.fresh) = dedupSites) ∧
    dedupAfter.m_symbols.Nodup ∧ dedupAfter.m_values.Nodup ∧
    (∀ k o, (k, o) ∈ useSites List.length dedupProgram (.code 0) (prologue Compiler.fresh) →
      k.isIn dedupAfter.m_symbols dedupAfter.m_values ∧
        o = operandSlots (k.index dedupAfter.m_symbols dedupAfter.m_values)) ∧
    (∀ k o₁ o₂,
      (k, o₁) ∈ useSites List.length dedupProgram (.code 0) (prologue Compiler.fresh) →
      (k, o₂) ∈ useSites List.length dedupProgram (.code 0) (prologue Compiler.fresh) →
      o₁ = o₂) :=
  ⟨⟨by decide, by decide⟩,
    compile_dedup List.length (fun _ => "") dedupProgram dedupAfter (by decide)⟩

/-! ## The serializer on small programs -/

/-- C13: the program `(fun (x) "s")` compiled by a fresh compiler.  The pool holds
`PageAddr 1` (the page of the function) and the string `"s"`.  After `VAL_TABLE_START` and
the count `0x00 0x02`, the `PageAddr` entry is written as a lone `NOP`, with no type marker
and no payload; the string is written as `STRING_TYPE`, `s`, `NOP`. -/
theorem compile_value_table_bytecode (cast : List Inst → Nat)
    (toString16 : HugeNumber → String) :
    (compile cast toString16
        (.List [.Keyword .Fun, .List [.Symbol "x"], .String "s"]) Compiler.fresh).map
        (fun c => (c.m_values, c.m_bytecode)) =
      some ([.PageAddr 1, .String "s"],
        [.num 97, .num 114, .num 107, .op .NOP, .op .SYM_TABLE_START,
          .num 0, .num 0, .num 0, .num 1, .num 120, .op .NOP,
          .op .VAL_TABLE_START, .num 0, .num 2,
          .op .NOP,
          .op .STRING_TYPE, .num 115, .op .NOP,
          .op .CODE_SEGMENT_START, .num 0, .num 0]) :=
  of_decide_eq_true (Eq.refl true)

/-- C16, as stated, fails: the output of the empty program `()` does not end with
`CODE_SEGMENT_START 0x00 0x00`. -/
theorem compile_empty_count_not_zero :
    ¬ ∃ cf, compile List.length (fun _ => "") (.List []) Compiler.fresh = some cf ∧
      [Byte.op .CODE_SEGMENT_START, .num 0, .num 0] <:+ cf.m_bytecode := by
  rintro ⟨cf, h, hsuf⟩
  have e : compile List.length (fun _ => "") (.List []) Compiler.fresh =
      some ⟨[], [], [slots [.op .NOP]], [],
        [.num 97, .num 114, .num 107, .op .NOP, .op .SYM_TABLE_START, .num 0, .num 0,
          .op .VAL_TABLE_START, .num 0, .num 0,
          .op .CODE_SEGMENT_START, .num 0, .num 1, .op .NOP, .op .HALT]⟩ := by decide
  rw [e] at h
  cases h
  revert hsuf
  decide

/-- C16, amended: the empty program `()` compiled by a fresh compiler.  The empty list puts
one `NOP` in page 0, so the output has exactly one code segment and its count is one: the
output ends with `CODE_SEGMENT_START 0x00 0x01 NOP HALT`. -/
theorem compile_empty_program (cast : List Inst → Nat) (toString16 : HugeNumber → String) :
    (compile cast toString16 (.List []) Compiler.fresh).map
        (fun c => (c.m_code_pages, c.m_bytecode)) =
      some ([slots [.op .NOP]],
        [.num 97, .num 114, .num 107, .op .NOP, .op .SYM_TABLE_START, .num 0, .num 0,
          .op .VAL_TABLE_START, .num 0, .num 0,
          .op .CODE_SEGMENT_START, .num 0, .num 1, .op .NOP, .op .HALT]) :=
  of_decide_eq_true (Eq.refl true)

/-- C19: the form `(while c b)` compiled into page 0.  `POP_JUMP_IF_FALSE` is at position 3
and its operand ends at position 5, so the skip is counted from position 6; the trailing
`JUMP` is at position 9 and the first slot after the loop is position 12, the end of the
page.  The skip reaches position `6 + n`, where `n` is the 16-bit conversion of the buffer:
it leaves the loop only if that conversion happens to be 6.  When the conversion is the slot
count of the buffer (3, what the `if` form pushes), the skip reaches position 9, the trailing
`JUMP` itself. -/
theorem compile_while_skip_target (cast : List Inst → Nat) :
    (_compile cast (.List [.Keyword .While, .Symbol "c", .Symbol "b"])
        (.code 0) Compiler.fresh.new_page).map
        (fun c => skipTarget (c.page (.code 0)) 3) =
      some (some (6 + cast (slots [.op .LOAD_SYMBOL, .num 0, .num 1]) % 65536)) ∧
    (_compile List.length (.List [.Keyword .While, .Symbol "c", .Symbol "b"])
        (.code 0) Compiler.fresh.new_page).map
        (fun c => (c.page (.code 0), skipTarget (c.page (.code 0)) 3,
          (c.page (.code 0))[9]?, (c.page (.code 0)).length)) =
      some (slots [.op .LOAD_SYMBOL, .num 0, .num 0, .op .POP_JUMP_IF_FALSE, .num 0, .num 3,
          .op .LOAD_SYMBOL, .num 0, .num 1, .op .JUMP, .num 0, .num 0],
        some 9, some (Inst.ofByte (.op .JUMP)), 12) := by
  refine ⟨?_, by decide⟩
  simp [_compile, addSymbol, find, pushNumber, pushNumberTo, Compiler.emplaceTo,
    Compiler.write, Compiler.alive, Compiler.spliceTo, Compiler.emplace_back,
    Compiler.extend, Compiler.new_page, Compiler.fresh, Compiler.splice, Compiler.page,
    appendAt, slots, Inst.ofByte, skipTarget, operand16]
  generalize hn : cast _ % 65536 = n
  have hlt : n < 65536 := by
    rw [← hn]
    exact Nat.mod_lt _ (by decide)
  rw [hi_byte_eq n hlt, lo_byte_eq n]
  omega

/-! ## The header and `pushNumber` -/

/-- C14: an AST compiled by a fresh compiler.  The first four bytes of the output are `a`,
`r`, `k` and `NOP`; once `NOP` has the value 0 they are the numbers 97, 114, 107, 0. -/
theorem compile_header (cast : List Inst → Nat) (toString16 : HugeNumber → String)
    (ast : Node) (cf : Compiler) (enc : Instruction → Nat)
    (h : compile cast toString16 ast Compiler.fresh = some cf) (hnop : enc .NOP = 0) :
    cf.m_bytecode.take 4 = [.num 'a'.toNat, .num 'r'.toNat, .num 'k'.toNat, .op .NOP] ∧
      (cf.m_bytecode.take 4).map (Byte.toNat enc) = [97, 114, 107, 0] := by
  obtain ⟨c1, h1, hf⟩ := compile_split cast toString16 ast _ cf h
  have ko := outputOnly_finish toString16 c1
  rw [hf] at ko
  have kt := (compile_tablesKept cast).1 _ _ _ _ h1
  obtain ⟨rest, hrest⟩ := kt.2.2.1.trans ko.2.2.2.2
  have hb : cf.m_bytecode =
      [.num 'a'.toNat, .num 'r'.toNat, .num 'k'.toNat, .op .NOP, .op .SYM_TABLE_START] ++
        rest := hrest.symm
  have ht : cf.m_bytecode.take 4 =
      [.num 'a'.toNat, .num 'r'.toNat, .num 'k'.toNat, .op .NOP] := by
    rw [hb]
    rfl
  refine ⟨ht, ?_⟩
  rw [ht]
  simp only [List.map, Byte.toNat, hnop]
  decide

/-- Witness for C14: the program `(f a)`. -/
theorem compile_header_witness :
    (compile List.length (fun _ => "") (.List [.Symbol "f", .Symbol "a"]) Compiler.fresh =
        some callAfter ∧ nopZero .NOP = 0) ∧
      callAfter.m_bytecode.take 4 =
        [.num 'a'.toNat, .num 'r'.toNat, .num 'k'.toNat, .op .NOP] ∧
      (callAfter.m_bytecode.take 4).map (Byte.toNat nopZero) = [97, 114, 107, 0] :=
  ⟨⟨by decide, rfl⟩,
    compile_header List.length (fun _ => "") (.List [.Symbol "f", .Symbol "a"]) callAfter
      nopZero (by decide) rfl⟩

/-- C15: `pushNumber(n)` for a 16-bit `n`.  Without a page it appends to `m_bytecode`, with a
page it appends to that page; in both cases exactly two elements are appended, `n / 256` then
`n % 256`, what the destination held stays in front, both halves are bytes and
`hi * 256 + lo = n`. -/
theorem pushNumber_big_endian (n : Nat) (c : Compiler) (p : PageRef) (h : n < 65536)
    (hp : c.hasPage p) :
    (pushNumber n none c).m_bytecode = c.m_bytecode ++ [.num (n / 256), .num (n % 256)] ∧
      (pushNumber n (some p) c).page p =
        c.page p ++ slots [.num (n / 256), .num (n % 256)] ∧
      n / 256 < 256 ∧ n % 256 < 256 ∧ n / 256 * 256 + n % 256 = n := by
  have hm : n % 65536 = n := Nat.mod_eq_of_lt h
  have e1 : (n % 65536 &&& 0xff00) >>> 8 = n / 256 := by rw [hm]; exact hi_byte_eq n h
  have e2 : n % 65536 &&& 0x00ff = n % 256 := by rw [hm]; exact lo_byte_eq n
  refine ⟨?_, ?_, by omega, by omega, by omega⟩
  · simp only [pushNumber, Compiler.push_byte, e1, e2, List.append_assoc, List.cons_append,
      List.nil_append]
  · simp only [pushNumber, Compiler.emplace_back, e1, e2]
    obtain ⟨q1, q2⟩ := page_extend_of_hasPage c p [Inst.ofByte (.num (n / 256))] hp
    rw [(page_extend_of_hasPage _ p _ q2).1, q1]
    simp [slots]

/-- Witness for C15: `pushNumber(0x1234)` on page 0 writes `0x12` then `0x34`. -/
theorem pushNumber_big_endian_witness :
    (4660 < 65536 ∧ whileBefore.hasPage (.code 0)) ∧
      (pushNumber 4660 none whileBefore).m_bytecode =
        whileBefore.m_bytecode ++ [.num (4660 / 256), .num (4660 % 256)] ∧
      (pushNumber 4660 (some (.code 0)) whileBefore).page (.code 0) =
        whileBefore.page (.code 0) ++ slots [.num (4660 / 256), .num (4660 % 256)] ∧
      4660 / 256 < 256 ∧ 4660 % 256 < 256 ∧ 4660 / 256 * 256 + 4660 % 256 = 4660 :=
  ⟨⟨by decide, Nat.zero_lt_succ 0⟩,
    pushNumber_big_endian 4660 whileBefore (.code 0) (by decide) (Nat.zero_lt_succ 0)⟩

/-! ## The temporary buffer -/

theorem TempKept.refl_tp (c : Compiler) : TempKept c c := Or.inl rfl

theorem TempKept.trans_tp {c c1 c2 : Compiler} (h1 : TempKept c c1) (h2 : TempKept c1 c2) :
    TempKept c c2 := by
  cases h2 with
  | inr e => exact Or.inr e
  | inl e =>
    cases h1 with
    | inl e1 => exact Or.inl (e.trans e1)
    | inr e1 => exact Or.inr (e.trans e1)

theorem TempKept.of_nil_tp {c c' : Compiler} (h : c'.m_temp_page = []) : TempKept c c' :=
  Or.inr h

theorem TempKept.nil_of_nil_tp {c c' : Compiler} (h : TempKept c c') (hc : c.m_temp_page = []) :
    c'.m_temp_page = [] := by
  cases h with
  | inl e => rw [e, hc]
  | inr e => exact e

theorem TempKept.extend_tp (c : Compiler) (p : PageRef) (s : List Inst) (hp : p ≠ .temp) :
    TempKept c (c.extend p s) := by
  cases p with
  | temp => exact absurd rfl hp
  | dangling => exact Or.inl rfl
  | code i => exact Or.inl rfl

theorem TempKept.emplace_back_tp (c : Compiler) (p : PageRef) (b : Byte) (hp : p ≠ .temp) :
    TempKept c (c.emplace_back p b) :=
  TempKept.extend_tp c p _ hp

theorem TempKept.pushNumber_tp (c : Compiler) (n : Nat) (p : PageRef) (hp : p ≠ .temp) :
    TempKept c (pushNumber n (some p) c) :=
  (TempKept.emplace_back_tp c p _ hp).trans_tp (TempKept.emplace_back_tp _ p _ hp)

theorem TempKept.pushNumber_none_tp (c : Compiler) (n : Nat) :
    TempKept c (Ark.pushNumber n none c) := Or.inl rfl

theorem splice_temp (c : Compiler) (p : PageRef) : (c.splice p).m_temp_page = [] := rfl

theorem TempKept.addSymbol_tp (name : String) (c : Compiler) :
    TempKept c (addSymbol name c).2 := by
  unfold Ark.addSymbol
  dsimp only
  split <;> exact Or.inl rfl

theorem TempKept.addValue_tp (v : Value) (c : Compiler) : TempKept c (addValue v c).2 := by
  unfold Ark.addValue
  dsimp only
  split <;> exact Or.inl rfl

theorem TempKept.loadIndex_tp (op : Instruction) (p : PageRef) (c : Compiler)
    (r : Nat × Compiler) (h : TempKept c r.2) (hp : p ≠ .temp) :
    TempKept c (loadIndex op p r) :=
  h.trans_tp ((TempKept.emplace_back_tp r.2 p _ hp).trans_tp (TempKept.pushNumber_tp _ _ p hp))

theorem back_ne_temp (c : Compiler) : c.back ≠ .temp := by
  simp [Compiler.back]

theorem pushParams_tempKept (ps : List Node) (c c' : Compiler)
    (h : pushParams ps c = some c') : TempKept c c' := by
  induction ps generalizing c with
  | nil =>
    simp only [pushParams, Option.some.injEq] at h
    subst h
    exact TempKept.refl_tp _
  | cons it its ih =>
    simp only [pushParams, Option.bind_eq_bind, Option.bind_eq_some] at h
    obtain ⟨name, _, h2⟩ := h
    exact (TempKept.emplace_back_tp c _ _ (back_ne_temp c)).trans_tp
      ((TempKept.addSymbol_tp name _).trans_tp
        ((TempKept.pushNumber_tp _ _ _ (back_ne_temp _)).trans_tp (ih _ h2)))

theorem funHeader_tempKept (c : Compiler) : TempKept c (funHeader c) :=
  TempKept.trans_tp (Or.inl rfl : TempKept c c.new_page)
    ((TempKept.addValue_tp _ _).trans_tp
      ((TempKept.pushNumber_none_tp _ _).trans_tp
        (TempKept.emplace_back_tp _ _ _ (back_ne_temp _))))

/-- Every successful run of `_compile`, and of its loops, whose target is not `m_temp_page`
leaves `m_temp_page` as it was or empty. -/
theorem compile_tempKept (cast : List Inst → Nat) :
    (∀ x page c c', _compile cast x page c = some c' → page ≠ .temp → TempKept c c') ∧
      (∀ xs page c c', _compileEach cast xs page c = some c' → page ≠ .temp →
        TempKept c c') := by
  apply compile_induction cast (fun _ p c c' => p ≠ .temp → TempKept c c')
    (fun _ p c c' => p ≠ .temp → TempKept c c')
  · intro name page c _ hp
    exact TempKept.loadIndex_tp _ _ _ _ (TempKept.addSymbol_tp _ _) hp
  · intro s page c _ hp
    exact TempKept.loadIndex_tp _ _ _ _ (TempKept.addValue_tp _ _) hp
  · intro n page c _ hp
    exact TempKept.loadIndex_tp _ _ _ _ (TempKept.addValue_tp _ _) hp
  · intro k page c _ hp
    exact TempKept.emplace_back_tp _ _ _ hp
  · intro page c _ hp
    exact TempKept.emplace_back_tp _ _ _ hp
  · intro cond thn els tail page c c1 c2 c3 _ _ _ _ _ _ _ _ k3 hp
    exact TempKept.of_nil_tp ((k3 hp).nil_of_nil_tp (splice_temp _ page))
  · intro target value tail page c name c1 _ _ k1 _ hp
    exact (TempKept.addSymbol_tp name c).trans_tp
      ((k1 hp).trans_tp (TempKept.loadIndex_tp _ page c1 _ (TempKept.refl_tp _) hp))
  · intro target value tail page c name c1 _ _ k1 _ hp
    exact (TempKept.addSymbol_tp name c).trans_tp
      ((k1 hp).trans_tp (TempKept.loadIndex_tp _ page c1 _ (TempKept.refl_tp _) hp))
  · intro params body tail page c c1 c2 h1 _ k2 _
    exact (funHeader_tempKept c).trans_tp
      ((pushParams_tempKept _ _ _ h1).trans_tp
        ((k2 (back_ne_temp c1)).trans_tp (TempKept.emplace_back_tp _ _ _ (back_ne_temp c2))))
  · intro rest page c c1 _ k1 _ _ hp
    exact (k1 hp).trans_tp (TempKept.emplace_back_tp c1 page _ hp)
  · intro cond body tail page c c1 c2 _ _ _ _ _ _ hp
    refine TempKept.of_nil_tp ?_
    have e : (whileTail cast page (c.page page).length c2).m_temp_page =
        ((c2.emplace_back page (.op .POP_JUMP_IF_FALSE)).splice page).m_temp_page := by
      cases page with
      | temp => exact absurd rfl hp
      | dangling => rfl
      | code i => rfl
    rw [e]
    rfl
  · intro proc args page c c1 c2 _ _ _ _ _ _ _ _ hp
    refine TempKept.of_nil_tp ?_
    cases page with
    | temp => exact absurd rfl hp
    | dangling => rfl
    | code i => rfl
  · intro page c _
    exact TempKept.refl_tp _
  · intro x xs page c c1 c2 _ k1 _ k2 hp
    exact (k1 hp).trans_tp (k2 (alive_ne_temp _ _ _ hp))

/-- C20: compiling any node into a code page leaves `m_temp_page` exactly as it was or empty;
in particular, when `m_temp_page` is empty before the call it is empty when the call
returns. -/
theorem compile_temp_page (cast : List Inst → Nat) (x : Node) (i : Nat) (c c' : Compiler)
    (h : _compile cast x (.code i) c = some c') :
    (c'.m_temp_page = c.m_temp_page ∨ c'.m_temp_page = []) ∧
      (c.m_temp_page = [] → c'.m_temp_page = []) := by
  have k : TempKept c c' := (compile_tempKept cast).1 x (.code i) c c' h (by simp)
  exact ⟨k, fun hc => k.nil_of_nil_tp hc⟩

/-- Witness for C20: `(f a)` compiled into page 0 while `m_temp_page` holds one slot. -/
theorem compile_temp_page_witness :
    _compile List.length (.List [.Symbol "f", .Symbol "a"]) (.code 0) tempBefore =
        some tempAfter ∧
      (tempAfter.m_temp_page = tempBefore.m_temp_page ∨ tempAfter.m_temp_page = []) ∧
      (tempBefore.m_temp_page = [] → tempAfter.m_temp_page = []) :=
  ⟨by decide,
    compile_temp_page List.length (.List [.Symbol "f", .Symbol "a"]) 0 tempBefore tempAfter
      (by decide)⟩

/-! ## The `begin` form -/

/-- A successful run of a `begin` form: the loop over its elements, then `RET` written
through a reference that is still valid. -/
theorem compile_begin_inv (cast : List Inst → Nat) (rest : List Node) (page : PageRef)
    (c c' : Compiler) (h : _compile cast (.List (.Keyword .Begin :: rest)) page c = some c') :
    ∃ c1, _compileEach cast rest page c = some c1 ∧ c1.hasPage page ∧
      c1.alive c.m_code_pages.length page = page ∧ c' = c1.emplace_back page (.op .RET) := by
  simp only [_compile, Option.bind_eq_bind, Option.bind_eq_some, emplaceTo_eq_some] at h
  obtain ⟨c1, h1, hp1, h2⟩ := h
  obtain ⟨e1, hp1⟩ := alive_of_hasPage hp1
  rw [e1] at h2
  exact ⟨c1, h1, hp1, e1, h2.symm⟩

theorem compileEach_appends (cast : List Inst → Nat) (i : Nat) (xs : List Node) :
    ∀ c c1, i < c.m_code_pages.length → c1.m_code_pages.length = c.m_code_pages.length →
      _compileEach cast xs (.code i) c = some c1 →
      ∃ codes, EachAppends cast (.code i) xs c codes c1 ∧ codes.length = xs.length ∧
        c1.page (.code i) = c.page (.code i) ++ codes.flatten := by
  induction xs with
  | nil =>
    intro c c1 hi _ h
    simp only [_compileEach, Option.some.injEq] at h
    subst h
    exact ⟨[], ⟨rfl, rfl⟩, rfl, by simp⟩
  | cons x xs ih =>
    intro c c1 hi hlen h
    simp only [_compileEach, Option.bind_eq_bind, Option.bind_eq_some] at h
    obtain ⟨c2, h2, h3⟩ := h
    have k := (compile_pagesKept cast).1 _ _ _ _ h2
    have k3 := (compile_pagesKept cast).2 _ _ _ _ h3
    have hl2 : c2.m_code_pages.length = c.m_code_pages.length := by
      have := k.1
      have := k3.1
      omega
    have ea : c2.alive c.m_code_pages.length (.code i) = .code i := by
      simp [Compiler.alive, hl2]
    rw [ea] at h3
    obtain ⟨code, hcode⟩ := (k.2 i hi).1
    obtain ⟨rest, hrest, hlen', hpage⟩ := ih c2 c1 (by omega) (by omega) h3
    have hc2 : c2.page (.code i) = c.page (.code i) ++ code := hcode.symm
    refine ⟨code :: rest, ⟨code, rest, c2, rfl, h2, hc2, hrest⟩, by simp [hlen'], ?_⟩
    rw [hpage, hc2]
    simp

/-- A `begin` form `(begin e1 ... en)` compiled into the code page `i` by a run that
returns.  The page
receives, after what it held, the slots appended by compiling `e1`, ..., `en` one after the
other into that page, then one `RET`; the last slot of the page is `RET`. -/
theorem begin_form_page (cast : List Inst → Nat) (rest : List Node) (i : Nat)
    (c c' : Compiler) (hpage : i < c.m_code_pages.length)
    (h : _compile cast (.List (.Keyword .Begin :: rest)) (.code i) c = some c') :
    ∃ codes c1, EachAppends cast (.code i) rest c codes c1 ∧ codes.length = rest.length ∧
      c'.page (.code i) = c.page (.code i) ++ codes.flatten ++ slots [.op .RET] ∧
      (c'.page (.code i)).getLast? = some (Inst.ofByte (.op .RET)) := by
  obtain ⟨c1, h1, hi1, ea, rfl⟩ := compile_begin_inv cast rest _ c c' h
  have hl1 : c1.m_code_pages.length = c.m_code_pages.length := by
    by_contra hne
    simp [Compiler.alive, hne] at ea
  obtain ⟨codes, hcodes, hlen, hp⟩ := compileEach_appends cast i rest c c1 hpage hl1 h1
  have e : (c1.emplace_back (.code i) (.op .RET)).page (.code i) =
      c.page (.code i) ++ codes.flatten ++ slots [.op .RET] := by
    rw [Compiler.emplace_back, page_extend c1 i _ hi1, hp]
    rfl
  refine ⟨codes, c1, hcodes, hlen, e, ?_⟩
  rw [e]
  simp [slots]

/-- The lemma `begin_form_page` at `(begin a (f b))` compiled into a page 0 that holds three slots. -/
theorem begin_form_page_witness :
    (0 < beginBefore.m_code_pages.length ∧
      _compile List.length
        (.List [.Keyword .Begin, .Symbol "a", .List [.Symbol "f", .Symbol "b"]]) (.code 0)
        beginBefore = some beginAfter) ∧
    ∃ codes c1,
      EachAppends List.length (.code 0) [.Symbol "a", .List [.Symbol "f", .Symbol "b"]]
        beginBefore codes c1 ∧
      codes.length = [Node.Symbol "a", .List [.Symbol "f", .Symbol "b"]].length ∧
      beginAfter.page (.code 0) =
        beginBefore.page (.code 0) ++ codes.flatten ++ slots [.op .RET] ∧
      (beginAfter.page (.code 0)).getLast? = some (Inst.ofByte (.op .RET)) :=
  ⟨⟨by decide, by decide⟩,
    begin_form_page List.length [.Symbol "a", .List [.Symbol "f", .Symbol "b"]] 0
      beginBefore beginAfter (by decide) (by decide)⟩

/-- C17: the form `(begin "s" (fun (x) x))` compiled into page 0.  The loop over the two
elements returns, with `LOAD_CONST 0 0` in page 0 and the code of the function in the new
page 1; the reference `page`, taken when `m_code_pages` held one page, is dangling by then.
The `RET` of the form is written through that reference, and the run has no defined result:
page 0 does not end with `RET`. -/
theorem compile_begin_fun_undefined (cast : List Inst → Nat) :
    (_compileEach cast [.String "s", .List [.Keyword .Fun, .List [.Symbol "x"], .Symbol "x"]]
        (.code 0) Compiler.fresh.new_page).map
        (fun c => (c.m_code_pages, c.alive 1 (.code 0))) =
      some ([slots [.op .LOAD_CONST, .num 0, .num 0],
        slots [.op .NEW_ENV, .op .LET, .num 0, .num 0, .op .LOAD_SYMBOL, .num 0, .num 0,
          .op .RET]], .dangling) ∧
    _compile cast (.List [.Keyword .Begin, .String "s",
        .List [.Keyword .Fun, .List [.Symbol "x"], .Symbol "x"]]) (.code 0)
        Compiler.fresh.new_page = none :=
  of_decide_eq_true (Eq.refl true)

/-! ## The number of code pages -/

theorem loadIndex_pages_length (op : Instruction) (p : PageRef) (r : Nat × Compiler) :
    (loadIndex op p r).m_code_pages.length = r.2.m_code_pages.length := by
  simp only [loadIndex, pushNumber_pages_length, Compiler.emplace_back, extend_pages_length]

theorem whileTail_pages_length (cast : List Inst → Nat) (p : PageRef) (n : Nat)
    (c : Compiler) : (whileTail cast p n c).m_code_pages.length = c.m_code_pages.length := by
  simp only [whileTail, pushNumber_pages_length, emplace_pages_length, splice_pages_length]

theorem funForms_call (proc : Node) (args : List Node) (hproc : ∀ k, proc ≠ .Keyword k) :
    funForms (.List (proc :: args)) = funForms proc + funFormsEach args := by
  rw [funForms]
  all_goals
    intros
    exact absurd (by assumption) (hproc _)

/-- Every successful run of `_compile` adds one page for each `fun` form in compiled position
and no other page. -/
theorem compile_pages_length (cast : List Inst → Nat) :
    (∀ x page c c', _compile cast x page c = some c' →
        c'.m_code_pages.length = c.m_code_pages.length + funForms x) ∧
      (∀ xs page c c', _compileEach cast xs page c = some c' →
        c'.m_code_pages.length = c.m_code_pages.length + funFormsEach xs) := by
  apply compile_induction cast
    (fun x _ c c' => c'.m_code_pages.length = c.m_code_pages.length + funForms x)
    (fun xs _ c c' => c'.m_code_pages.length = c.m_code_pages.length + funFormsEach xs)
  · intro name page c _
    rw [loadIndex_pages_length, addSymbol_pages]
    simp [funForms]
  · intro s page c _
    rw [loadIndex_pages_length, addValue_pages]
    simp [funForms]
  · intro n page c _
    rw [loadIndex_pages_length, addValue_pages]
    simp [funForms]
  · intro k page c _
    rw [emplace_pages_length]
    simp [funForms]
  · intro page c _
    rw [emplace_pages_length]
    simp [funForms]
  · intro cond thn els tail page c c1 c2 c3 _ k1 _ _ k2 _ _ _ k3
    rw [splice_pages_length, pushNumber_pages_length] at k3
    rw [emplace_pages_length] at k2
    simp only [funForms]
    omega
  · intro target value tail page c name c1 _ _ k1 _
    rw [addSymbol_pages] at k1
    rw [loadIndex_pages_length]
    simp only [funForms]
    exact k1
  · intro target value tail page c name c1 _ _ k1 _
    rw [addSymbol_pages] at k1
    rw [loadIndex_pages_length]
    simp only [funForms]
    exact k1
  · intro params body tail page c c1 c2 h1 _ k2
    have hl0 := (funHeader_pages c).1
    have hl1 := (pushParams_pages _ _ _ h1).1
    rw [emplace_pages_length]
    simp only [funForms]
    omega
  · intro rest page c c1 _ k1 _ _
    rw [emplace_pages_length]
    simp only [funForms]
    exact k1
  · intro cond body tail page c c1 c2 _ k1 _ k2 _ _
    rw [whileTail_pages_length]
    simp only [funForms]
    omega
  · intro proc args page c c1 c2 hproc _ k1 _ k2 _ _ _
    rw [pushNumber_pages_length, emplace_pages_length, splice_pages_length,
      funForms_call proc args hproc]
    omega
  · intro page c
    simp [funFormsEach]
  · intro x xs page c c1 c2 _ k1 _ k2
    simp only [funFormsEach]
    omega

/-- An AST on which `compile` returns from a fresh compiler ends with `1 + funForms ast` code pages: page 0
and one page for each `fun` form in compiled position.  Every run of `_compile` adds exactly
one page for each such form, never removes a page, and keeps the slots of every page that
existed in front of what it appends to that page. -/
theorem compile_page_count (cast : List Inst → Nat) (toString16 : HugeNumber → String)
    (ast : Node) (cf : Compiler)
    (h : compile cast toString16 ast Compiler.fresh = some cf) :
    cf.m_code_pages.length = 1 + funForms ast ∧
      ∀ x page c c', _compile cast x page c = some c' →
        c'.m_code_pages.length = c.m_code_pages.length + funForms x ∧
        ∀ j, j < c.m_code_pages.length →
          ∃ added, c'.page (.code j) = c.page (.code j) ++ added := by
  obtain ⟨c1, h1, hf⟩ := compile_split cast toString16 ast _ cf h
  have ko := outputOnly_finish toString16 c1
  rw [hf] at ko
  have hl := (compile_pages_length cast).1 _ _ _ _ h1
  refine ⟨?_, fun x page c c' hx => ⟨(compile_pages_length cast).1 _ _ _ _ hx, ?_⟩⟩
  · rw [ko.2.2.1, hl]
    have e : (prologue Compiler.fresh).m_code_pages.length = 1 := rfl
    rw [e]
  · intro j hj
    obtain ⟨added, hadd⟩ := (((compile_pagesKept cast).1 _ _ _ _ hx).2 j hj).1
    exact ⟨added, hadd.symm⟩

/-- The lemma `compile_page_count` at `(fun (x) (fun (y) y))`, which holds two `fun` forms
and ends with three pages. -/
theorem compile_page_count_witness :
    compile List.length (fun _ => "") nestedFunProgram Compiler.fresh = some nestedFunAfter ∧
    nestedFunAfter.m_code_pages.length = 1 + funForms nestedFunProgram ∧
      ∀ x page c c', _compile List.length x page c = some c' →
        c'.m_code_pages.length = c.m_code_pages.length + funForms x ∧
        ∀ j, j < c.m_code_pages.length →
          ∃ added, c'.page (.code j) = c.page (.code j) ++ added :=
  ⟨by decide,
    compile_page_count List.length (fun _ => "") nestedFunProgram nestedFunAfter (by decide)⟩

/-- C18: the program `(begin (fun (x) (fun () x)))` compiled by a fresh compiler.  The loop
of the `begin` form returns with three pages, one for page 0 and one for each `fun` form, and
page 0 still empty; the reference to page 0 that `compile` passed is dangling by then.  The
`RET` of the `begin` form is written through that reference, so `compile` has no defined
result: the compilation does not end with three pages that kept their slots. -/
theorem compile_two_fun_undefined (cast : List Inst → Nat)
    (toString16 : HugeNumber → String) :
    (_compileEach cast [.List [.Keyword .Fun, .List [.Symbol "x"],
        .List [.Keyword .Fun, .List [], .Symbol "x"]]] (.code 0) (prologue Compiler.fresh)).map
        (fun c => (c.m_code_pages.length, c.page (.code 0), c.alive 1 (.code 0))) =
      some (3, [], .dangling) ∧
    compile cast toString16 twoFunProgram Compiler.fresh = none :=
  of_decide_eq_true (Eq.refl true)

end Ark
